import Mathlib

/-!
Shallow embedding of the deck-construction engine of
`src/backend/services/deck_builder.py`.

Python dictionaries are modelled as association lists `List (String × α)`
with first-seen key order and in-place value update, matching CPython's
insertion-ordered `dict`.  Python `int` is modelled as `ℤ`, Python `float`
(mana values and heuristic scores, which the source only adds, subtracts,
multiplies and divides) as `ℚ`, and Python's banker's `round` as an
explicit round-half-to-even on `ℚ`.
-/

namespace MtgDB

/-- First-match lookup: `d.get(key)` / `key in d` on a Python dict. -/
def dlookup {α : Type} : List (String × α) → String → Option α
  | [], _ => none
  | (k, v) :: rest, key => if k = key then some v else dlookup rest key

/-- `d.get(key, dflt)` on a Python dict. -/
def dget {α : Type} (l : List (String × α)) (key : String) (dflt : α) : α :=
  (dlookup l key).getD dflt

/-- `d[key] = v` on a Python dict: update in place if the key exists
(keeping its position), else append at the end. -/
def dinsert {α : Type} : List (String × α) → String → α → List (String × α)
  | [], key, v => [(key, v)]
  | (k, w) :: rest, key, v =>
      if k = key then (k, v) :: rest else (k, w) :: dinsert rest key v

/-- `sum(d.values())` for an integer-valued dict. -/
def dsum (l : List (String × ℤ)) : ℤ := (l.map Prod.snd).sum

/-- `{p[0]: p[1] for p in l}`: Python dict built from a pair list
(first-seen key position, last value wins). -/
def fromListPy {α : Type} (l : List (String × α)) : List (String × α) :=
  l.foldl (fun d p => dinsert d p.1 p.2) []

/-- `DeckSpec` from `deck_builder.py` (the user's blueprint).  The Python
field is a `Set[str]`; it is modelled as a list fixing the otherwise
arbitrary-but-deterministic iteration order (`list(s)[0]` in the source). -/
structure DeckSpec where
  format : String
  color_identity : List String
  target_creatures : ℤ
  target_removal : ℤ
  target_ramp : ℤ
  target_draw : ℤ
  target_board_wipes : ℤ
  target_lands : ℤ
deriving DecidableEq

/-- `AnalyzedCard` from `deck_builder.py`. -/
structure AnalyzedCard where
  scryfall_id : String
  name : String
  quantity : ℤ
  type_line : String
  oracle_text : Option String
  mana_cost : Option String
  color_identity : List String
  mana_value : ℚ
  roles : List String
deriving DecidableEq

/-- `Decklist` from `deck_builder.py`. -/
structure Decklist where
  main_deck : List (String × ℤ)
  sideboard : List (String × ℤ)
  message : String

/-- `DeckConstruction`: the mutable construction ledger, modelled as an
explicitly threaded record. -/
structure DeckConstruction where
  spec : DeckSpec
  main_deck : List (String × ℤ)
  available_pool : List (String × AnalyzedCard)
  role_counts : List (String × ℤ)
deriving DecidableEq

/-- The per-name copy limit: `1 if spec.format == "commander" else 4`. -/
def copyLimit (spec : DeckSpec) : ℤ :=
  if spec.format = "commander" then 1 else 4

/-- `DeckConstruction.__init__`. -/
def DeckConstruction.init (spec : DeckSpec) (initial_pool : List AnalyzedCard) :
    DeckConstruction :=
  { spec := spec
    main_deck := []
    available_pool := fromListPy (initial_pool.map fun c => (c.name, c))
    role_counts := [] }

/-- `DeckConstruction.total_cards`. -/
def DeckConstruction.total_cards (dc : DeckConstruction) : ℤ :=
  dsum dc.main_deck

/-- The `for role in card.roles: self.role_counts[role] += 1` loop of
`add_card` (`role_counts` is a `defaultdict(int)`). -/
def bumpRoles : List (String × ℤ) → List String → List (String × ℤ)
  | rc, [] => rc
  | rc, role :: rest => bumpRoles (dinsert rc role (dget rc role 0 + 1)) rest

/-- `DeckConstruction.add_card` (deck_builder.py lines 63-78), returning the
Python result together with the updated state. -/
def DeckConstruction.add_card (dc : DeckConstruction) (card_name : String) :
    Bool × DeckConstruction :=
  match dlookup dc.available_pool card_name with
  | none => (false, dc)
  | some card =>
    let current_deck_qty := dget dc.main_deck card_name 0
    if current_deck_qty ≥ copyLimit dc.spec ∨ current_deck_qty ≥ card.quantity then
      (false, dc)
    else
      (true,
       { dc with
         main_deck := dinsert dc.main_deck card_name (current_deck_qty + 1)
         role_counts := bumpRoles dc.role_counts card.roles })

/-- The `role_targets` dict of `score_card`, as a partial map from role
name to the configured target. -/
def roleTarget (spec : DeckSpec) (role : String) : Option ℤ :=
  if role = "removal" then some spec.target_removal
  else if role = "ramp" then some spec.target_ramp
  else if role = "draw" then some spec.target_draw
  else if role = "threat" then some spec.target_creatures
  else if role = "board_wipe" then some spec.target_board_wipes
  else none

/-- The `for role in card.roles` accumulation loop of `score_card`. -/
def scoreRoles (dc : DeckConstruction) : List String → ℚ → ℚ
  | [], score => score
  | role :: rest, score =>
    match roleTarget dc.spec role with
    | some target_count =>
      let current_count := dget dc.role_counts role 0
      if current_count < target_count then
        scoreRoles dc rest (score + 10 * (1 - (current_count : ℚ) / (target_count : ℚ)))
      else
        scoreRoles dc rest score
    | none => scoreRoles dc rest score

/-- `score_card` (deck_builder.py lines 135-155). -/
def score_card (card : AnalyzedCard) (dc : DeckConstruction) : ℚ :=
  let score := scoreRoles dc card.roles 1
  if card.mana_value > 5 then score - (card.mana_value - 5) * (1/2) else score

/-! ### Text matching (`analyze_card_roles` regexes)

The classifier only uses Python `in` (substring) tests and `re.search`
with patterns of the shape `tok₁ .* tok₂ .* …` where each `tokᵢ` is a
literal, possibly `\b`-delimited and possibly with an optional trailing
`(s)?`.  `.*` never crosses a newline (no `DOTALL`).  We embed exactly
this fragment: a pattern is a sequence of pieces, a piece being a list of
alternative literals plus a flag for `\b` word boundaries. -/

/-- Python `\w` (ASCII fragment, which covers card text). -/
def isWordChar (c : Char) : Bool := c.isAlphanum || c = '_'

/-- Is `tok` a literal prefix of `l`? -/
def litAt : List Char → List Char → Bool
  | [], _ => true
  | _ :: _, [] => false
  | t :: ts, c :: cs => t = c && litAt ts cs

/-- Python `sub in s` (contiguous substring test). -/
def strContains (s sub : String) : Bool :=
  s.toList.tails.any fun suf => litAt sub.toList suf

/-- A `\b` holds before a word character iff the previous character (none
at the start of the text) is not a word character. -/
def wordBoundary (prev : Option Char) : Bool :=
  match prev with
  | none => true
  | some c => !isWordChar c

/-- `tok` matches at the head of `l`, with a trailing `\b` if `bounded`. -/
def tokAt (tok : List Char) (bounded : Bool) (l : List Char) : Bool :=
  litAt tok l &&
    (!bounded ||
      (match l.drop tok.length with
       | [] => true
       | c :: _ => !isWordChar c))

/-- The character preceding the text position right after `tok`. -/
def tokLast (tok : List Char) (prev : Option Char) : Option Char :=
  match tok.getLast? with
  | some c => some c
  | none => prev

/-- A piece of a pattern: alternative literals and whether they are
`\b`-delimited on both sides. -/
def Piece : Type := List (List Char) × Bool

/-- All `(previous character, suffix)` positions of a text. -/
def suffixes : Option Char → List Char → List (Option Char × List Char)
  | prev, [] => [(prev, [])]
  | prev, c :: cs => (prev, c :: cs) :: suffixes (some c) cs

/-- Positions reachable from here by `.*` (which does not cross `'\n'`). -/
def lineSuffixes : Option Char → List Char → List (Option Char × List Char)
  | prev, [] => [(prev, [])]
  | prev, c :: cs =>
      (prev, c :: cs) :: (if c = '\n' then [] else lineSuffixes (some c) cs)

/-- The positions right after a match of the piece at this position. -/
def pieceAt (alts : List (List Char)) (bounded : Bool) (prev : Option Char)
    (l : List Char) : List (Option Char × List Char) :=
  alts.filterMap fun tok =>
    if (!bounded || wordBoundary prev) && tokAt tok bounded l then
      some (tokLast tok prev, l.drop tok.length)
    else none

/-- The whole sequence of pieces matches starting exactly at this position
(later pieces may float, `.*`-separated, within the line). -/
def seqFrom : List Piece → Option Char × List Char → Bool
  | [], _ => true
  | piece :: rest, (prev, l) =>
      (pieceAt piece.1 piece.2 prev l).any fun r =>
        (lineSuffixes r.1 r.2).any fun p => seqFrom rest p

/-- `re.search` for the pattern fragment described above. -/
def reSearch (pieces : List Piece) (text : List Char) : Bool :=
  (suffixes none text).any fun p => seqFrom pieces p

/-- A `\b`-delimited literal piece (`\blit\b`). -/
def pWord (lit : String) : Piece := ([lit.toList], true)

/-- A `\b`-delimited literal with optional plural `s` (`\blit(s)?\b`). -/
def pWordS (lit : String) : Piece := ([lit.toList, (lit ++ "s").toList], true)

/-- An undelimited literal piece. -/
def pLit (lit : String) : Piece := ([lit.toList], false)

/-- Drop a leading run of ASCII digits. -/
def skipDigits : List Char → List Char
  | [] => []
  | c :: cs => if c.isDigit then skipDigits cs else c :: cs

/-- `\d+` at the head of `l`: at least one digit, returning the rest. -/
def digits1 : List Char → Option (List Char)
  | [] => none
  | c :: cs => if c.isDigit then some (skipDigits cs) else none

/-- `re.search(r"creatures you control get \+\d+/\+\d+", text)`. -/
def anthemSearch (text : List Char) : Bool :=
  (suffixes none text).any fun p =>
    litAt "creatures you control get +".toList p.2 &&
      (match digits1 (p.2.drop "creatures you control get +".toList.length) with
       | none => false
       | some r1 =>
         litAt "/+".toList r1 &&
           (digits1 (r1.drop 2)).isSome)

/-- Python `str.lower()` over the characters of a string. -/
def lowerChars (s : String) : List Char := s.toList.map Char.toLower

/-- The set of roles fired by the classification rules of
`analyze_card_roles` (deck_builder.py lines 215-244), before the
`"synergy"` fallback, listed rule by rule.  A Python `set` is insertion-
order free, and the caller sorts, so a fixed listing order is faithful. -/
def classifierBaseRoles (card : AnalyzedCard) : List String :=
  let t := lowerChars card.type_line
  let o := lowerChars (card.oracle_text.getD "")
  let os := String.mk o
  let ts := String.mk t
  let ramp :=
    (strContains os "add" && (strContains os "\x7b" || strContains os "mana")) ||
    strContains os "search your library for a basic land card"
  let draw := reSearch [pWordS "draw", pWordS "card"] o
  let tutor :=
    strContains os "search your library for a card" &&
    strContains os "put it into your hand"
  let wipe :=
    reSearch [pWord "destroy all creatures"] o ||
    reSearch [pWord "exile all creatures"] o
  let removalSingle :=
    reSearch [pWordS "destroy", pWord "target"] o ||
    reSearch [pWordS "exile", pWord "target"] o ||
    reSearch [pWordS "deal", pWord "damage", pWord "to any target"] o ||
    reSearch [pWordS "deal", pWord "damage", pWord "target creature"] o ||
    reSearch [pWordS "fight", pWord "another target creature"] o
  let disruption :=
    reSearch [([("counter".toList), ("counters".toList)], true), pWord "target",
      pWord "spell"] o ||
    reSearch [pLit "target player", pLit "discards"] o
  let protection :=
    reSearch [(["gain hexproof".toList, "gains hexproof".toList], true)] o ||
    reSearch [(["gain indestructible".toList, "gains indestructible".toList], true)] o
  let anthem := anthemSearch o
  let threat := strContains ts "creature"
  let land := strContains ts "land"
  (([("ramp", ramp), ("draw", draw), ("tutor", tutor), ("board_wipe", wipe),
     ("removal", wipe || removalSingle), ("disruption", disruption),
     ("protection", protection), ("anthem", anthem), ("threat", threat),
     ("land", land)].filter fun p => p.2).map fun p => p.1)

/-- `analyze_card_roles` (deck_builder.py lines 215-246):
`sorted(list(roles))`, with the `"synergy"` fallback when no rule fired. -/
def analyze_card_roles (card : AnalyzedCard) : List String :=
  List.insertionSort (· ≤ ·)
    (if (classifierBaseRoles card).isEmpty then ["synergy"]
     else classifierBaseRoles card)

/-! ### Land-base synthesis (`_generate_basic_land_base`) -/

/-- `re.findall(r'\{([WUBRG])\}', mana_cost, re.IGNORECASE)` with the
captured symbols upper-cased: left-to-right non-overlapping scan for
3-character groups `{X}`. -/
def extractPips : List Char → List Char
  | '\x7b' :: d :: '\x7d' :: rest =>
      if "WUBRGwubrg".toList.contains d then
        d.toUpper :: extractPips rest
      else
        extractPips (d :: '\x7d' :: rest)
  | _ :: rest => extractPips rest
  | [] => []

/-- The `land_map` dict `{"W": "Plains", "U": "Island", "B": "Swamp",
"R": "Mountain", "G": "Forest"}`, read with `.get`. -/
def landMap (color : String) : Option String :=
  if color = "W" then some "Plains"
  else if color = "U" then some "Island"
  else if color = "B" then some "Swamp"
  else if color = "R" then some "Mountain"
  else if color = "G" then some "Forest"
  else none

/-- The pip-count accumulation of `_generate_basic_land_base`
(lines 86-94): for every main-deck entry, count each colored symbol of
the card's mana cost, weighted by the chosen quantity.  `pip_counts` is a
`defaultdict(int)` and keeps first-insertion key order. -/
def pipSyms (qty : ℤ) : List Char → List (String × ℤ) → List (String × ℤ)
  | [], pc => pc
  | symbol :: rest, pc =>
      pipSyms qty rest
        (dinsert pc (String.mk [symbol]) (dget pc (String.mk [symbol]) 0 + qty))

def pipCountsGo (card_map : List (String × AnalyzedCard)) :
    List (String × ℤ) → List (String × ℤ) → List (String × ℤ)
  | [], pc => pc
  | entry :: rest, pc =>
      pipCountsGo card_map rest
        (match dlookup card_map entry.1 with
         | some card =>
           match card.mana_cost with
           | some mana_cost => pipSyms entry.2 (extractPips mana_cost.toList) pc
           | none => pc
         | none => pc)

def pipCounts (deck : DeckConstruction) (pool : List AnalyzedCard) :
    List (String × ℤ) :=
  pipCountsGo (fromListPy (pool.map fun c => (c.name, c))) deck.main_deck []

/-- Python 3 `round` on our `ℚ` model of floats: round half to even. -/
def pyRound (q : ℚ) : ℤ :=
  let f := ⌊q⌋
  let r := q - (f : ℚ)
  if r < 1/2 then f
  else if 1/2 < r then f + 1
  else if f % 2 = 0 then f else f + 1

/-- The proportional first pass of `_generate_basic_land_base`
(lines 104-114): `land_base[land_map[color]] = round(lands_to_add *
count/total_pips)` for each pip color, plus the accumulated
`temp_land_count`. -/
def initialAllocGo (total_pips lands_to_add : ℤ) :
    List (String × ℤ) → List (String × ℤ) × ℤ → List (String × ℤ) × ℤ
  | [], acc => acc
  | p :: rest, acc =>
    initialAllocGo total_pips lands_to_add rest
      (let ratio : ℚ := (p.2 : ℚ) / (total_pips : ℚ)
       let num_lands := pyRound ((lands_to_add : ℚ) * ratio)
       match landMap p.1 with
       | some land_name => (dinsert acc.1 land_name num_lands, acc.2 + num_lands)
       | none => acc)

def initialAlloc (pip_counts : List (String × ℤ)) (total_pips lands_to_add : ℤ) :
    List (String × ℤ) × ℤ :=
  initialAllocGo total_pips lands_to_add pip_counts ([], 0)

/-- `max(pip_counts, key=pip_counts.get)`: the first key of maximal value. -/
def pyMaxKey (l : List (String × ℤ)) : Option String :=
  match l with
  | [] => none
  | p :: rest =>
      some (rest.foldl (fun best q => if q.2 > best.2 then q else best) p).1

/-- `min((c for c in pip_counts if land_base.get(land_map.get(c, ''), 0) > 0),
key=pip_counts.get, default=None)`: the first filtered key of minimal value. -/
def pyMinKeyAlloc (pip_counts land_base : List (String × ℤ)) : Option String :=
  match pip_counts.filter fun p => dget land_base ((landMap p.1).getD "") 0 > 0 with
  | [] => none
  | p :: rest =>
      some (rest.foldl (fun best q => if q.2 < best.2 then q else best) p).1

/-- The `while lands_diff != 0` reconciliation loop of
`_generate_basic_land_base` (lines 116-131).  Each iteration that does not
`break` moves `lands_diff` by exactly one toward zero, so
`lands_diff.natAbs` units of fuel reproduce the unbounded Python loop.
The two `landMap … = none` fallbacks are unreachable for pip colors
(which are always among W/U/B/R/G); Python would raise a `KeyError`
there. -/
def reconcile (pip_counts : List (String × ℤ)) :
    ℕ → ℤ → List (String × ℤ) → List (String × ℤ)
  | 0, _, land_base => land_base
  | fuel + 1, lands_diff, land_base =>
    if lands_diff = 0 then land_base
    else if lands_diff > 0 then
      match pyMaxKey pip_counts with
      | some most_needed_color =>
        match landMap most_needed_color with
        | some name =>
            reconcile pip_counts fuel (lands_diff - 1)
              (dinsert land_base name (dget land_base name 0 + 1))
        | none => land_base
      | none => land_base
    else
      if land_base.any fun p => p.2 != 0 then
        match pyMinKeyAlloc pip_counts land_base with
        | some least_needed_color =>
          match landMap least_needed_color with
          | some name =>
              reconcile pip_counts fuel (lands_diff + 1)
                (dinsert land_base name (dget land_base name 0 - 1))
          | none => land_base
        | none => land_base
      else land_base

/-- `_generate_basic_land_base` (deck_builder.py lines 84-133).  In the
zero-pip branch, `list(spec.color_identity)[0]` is the head of our
list-modelled color identity; `landMap … = none` there would be a Python
`KeyError` (colors are restricted to W/U/B/R/G by the DeckSpec
invariant). -/
def generate_basic_land_base (deck : DeckConstruction) (pool : List AnalyzedCard)
    (lands_to_add : ℤ) : List (String × ℤ) :=
  let pip_counts := pipCounts deck pool
  let total_pips := dsum pip_counts
  if total_pips = 0 then
    match deck.spec.color_identity.head? with
    | some primary_color =>
      match landMap primary_color with
      | some name => [(name, lands_to_add)]
      | none => []
    | none => [("Wastes", lands_to_add)]
  else
    let alloc := initialAlloc pip_counts total_pips lands_to_add
    reconcile pip_counts (lands_to_add - alloc.2).natAbs
      (lands_to_add - alloc.2) alloc.1

/-! ### The `build_deck` pipeline -/

/-- `100 if spec.format == "commander" else 60`. -/
def targetDeckSize (spec : DeckSpec) : ℤ :=
  if spec.format = "commander" then 100 else 60

/-- `non_land_target = target_deck_size - spec.target_lands`. -/
def nonLandTarget (spec : DeckSpec) : ℤ :=
  targetDeckSize spec - spec.target_lands

/-- The body of the candidate scan of the non-land selection loop
(deck_builder.py lines 172-180), iterating `available_pool.items()` while
tracking `(best_card_name, best_score)`. -/
def pickFold (dc : DeckConstruction) :
    List (String × AnalyzedCard) → Option String × ℚ → Option String × ℚ
  | [], best => best
  | p :: rest, best =>
      pickFold dc rest
        (if dget dc.main_deck p.1 0 < p.2.quantity ∧
            dget dc.main_deck p.1 0 < copyLimit dc.spec ∧
            p.2.roles.contains "land" = false ∧ score_card p.2 dc > best.2 then
          (some p.1, score_card p.2 dc)
        else best)

/-- The candidate scan of one iteration of the non-land selection loop
(deck_builder.py lines 169-180): the first addable non-land card whose
score strictly beats every earlier candidate, seeded with
`best_score = -1.0`. -/
def pickBest (dc : DeckConstruction) : Option String :=
  (pickFold dc dc.available_pool ((none : Option String), (-1 : ℚ))).1

/-- The `while deck.total_cards < non_land_target` selection loop
(deck_builder.py lines 168-185).  Every iteration that picks a card adds
exactly one copy (the winner is always addable), so `non_land_target`
units of fuel reproduce the unbounded Python loop from the empty deck. -/
def nonlandLoop (non_land_target : ℤ) : ℕ → DeckConstruction → DeckConstruction
  | 0, dc => dc
  | fuel + 1, dc =>
    if dc.total_cards < non_land_target then
      match pickBest dc with
      | some best_card_name =>
          nonlandLoop non_land_target fuel (dc.add_card best_card_name).2
      | none => dc
    else dc

/-- The non-basic utility-land phase (deck_builder.py lines 187-194),
threading the deck state and the `lands_in_deck` dict. -/
def landPhase1 (spec : DeckSpec) :
    List AnalyzedCard → DeckConstruction → List (String × ℤ) →
    DeckConstruction × List (String × ℤ)
  | [], dc, lands_in_deck => (dc, lands_in_deck)
  | card :: rest, dc, lands_in_deck =>
    if card.roles.contains "land" ∧ dlookup dc.main_deck card.name = none then
      let is_basic := ["plains", "island", "swamp", "mountain", "forest"].any
        fun lt => strContains (String.mk (lowerChars card.type_line)) lt
      if is_basic = false then
        if (dsum lands_in_deck : ℚ) < (spec.target_lands : ℚ) * (1/2) then
          landPhase1 spec rest (dc.add_card card.name).2
            (dinsert lands_in_deck card.name 1)
        else landPhase1 spec rest dc lands_in_deck
      else landPhase1 spec rest dc lands_in_deck
    else landPhase1 spec rest dc lands_in_deck

/-- Python `d.update(other)`. -/
def dupdate {α : Type} (d other : List (String × α)) : List (String × α) :=
  other.foldl (fun acc p => dinsert acc p.1 p.2) d

/-- The deck state at the end of `build_deck` (deck_builder.py
lines 164-199), for a non-empty filtered pool: non-land selection, the
non-basic land phase, then the basic-land merge. -/
def build_deck_state (spec : DeckSpec) (buildable_pool : List AnalyzedCard) :
    DeckConstruction :=
  let deck := DeckConstruction.init spec buildable_pool
  let deck := nonlandLoop (nonLandTarget spec) (nonLandTarget spec).toNat deck
  let phase1 := landPhase1 spec buildable_pool deck []
  let deck := phase1.1
  let remaining_lands := spec.target_lands - (phase1.2.length : ℤ)
  if remaining_lands > 0 then
    { deck with
      main_deck :=
        dupdate deck.main_deck
          (generate_basic_land_base deck buildable_pool remaining_lands) }
  else deck

/-- `build_deck` (deck_builder.py lines 157-209), taken from the point the
filtered pool (`get_buildable_cards`, an excluded database collaborator)
has been computed. -/
def build_deck (spec : DeckSpec) (buildable_pool : List AnalyzedCard) : Decklist :=
  if buildable_pool.isEmpty then
    { main_deck := [], sideboard := [], message := "No buildable cards found." }
  else
    let deck := build_deck_state spec buildable_pool
    let message :=
      "Deck built successfully with " ++ toString deck.total_cards ++ " cards!" ++
      (if deck.total_cards ≠ targetDeckSize spec then
        " WARNING: Final deck count is " ++ toString deck.total_cards ++
          ", which is incorrect for the \x27" ++ spec.format ++ "\x27 format."
       else "")
    { main_deck := deck.main_deck, sideboard := [], message := message }

/-! ### Derived predicates used by the statements -/

/-- The additive contribution of one role inside `score_card`'s loop. -/
def roleBonus (dc : DeckConstruction) (role : String) : ℚ :=
  match roleTarget dc.spec role with
  | some target_count =>
    if dget dc.role_counts role 0 < target_count then
      10 * (1 - ((dget dc.role_counts role 0 : ℤ) : ℚ) / ((target_count : ℤ) : ℚ))
    else 0
  | none => 0

/-- The candidate condition of the non-land selection loop: still addable
(deck quantity below both the owned quantity and the copy limit) and not
tagged `"land"`. -/
def addableNonland (dc : DeckConstruction) (p : String × AnalyzedCard) : Prop :=
  dget dc.main_deck p.1 0 < p.2.quantity ∧
  dget dc.main_deck p.1 0 < copyLimit dc.spec ∧
  p.2.roles.contains "land" = false

instance (dc : DeckConstruction) (p : String × AnalyzedCard) :
    Decidable (addableNonland dc p) := by
  unfold addableNonland
  infer_instance

/-- The role set of the pool card registered under a name (empty for names
outside the pool, which then contribute nothing to any role sum). -/
def rolesOfName (pool : List (String × AnalyzedCard)) (n : String) : List String :=
  match dlookup pool n with
  | some c => c.roles
  | none => []

/-- The role-count bookkeeping target: the sum over main-deck entries of
the entry's quantity when the entry's pool card carries the role. -/
def roleSum (dc : DeckConstruction) (r : String) : ℤ :=
  (dc.main_deck.map fun p =>
    if r ∈ rolesOfName dc.available_pool p.1 then p.2 else 0).sum

/-- A sequence of `addCard` calls from a given state. -/
def applyAdds (dc : DeckConstruction) (names : List String) : DeckConstruction :=
  names.foldl (fun dc n => (dc.add_card n).2) dc

/-! ### Concrete fixtures used by witnesses and counterexamples -/

/-- A plain creature card owned three times. -/
def bearW : AnalyzedCard := ⟨"i", "Bear", 3, "Creature", none, none, [], 2, ["threat"]⟩

/-- A one-card deck state holding `bearW`. -/
def dcW : DeckConstruction :=
  ⟨⟨"modern", [], 25, 10, 10, 8, 2, 37⟩, [], [("Bear", bearW)], []⟩

/-- An expensive sorcery whose heuristic score is exactly `-1.0`. -/
def bigW : AnalyzedCard := ⟨"i", "Big", 1, "Sorcery", none, none, ["W"], 9, ["synergy"]⟩

/-- A modern spec with a non-land target of exactly one card. -/
def specC3 : DeckSpec := ⟨"modern", ["W"], 25, 10, 10, 8, 2, 59⟩

/-- The deck state after the non-land selection loop on the pool `[bigW]`. -/
def dcC3 : DeckConstruction :=
  nonlandLoop (nonLandTarget specC3) (nonLandTarget specC3).toNat
    (DeckConstruction.init specC3 [bigW])

/-- A plain one-pip-free sorcery used by several concrete builds. -/
def gloryW : AnalyzedCard :=
  ⟨"i", "Glory", 1, "Sorcery", none, none, ["W"], 0, ["synergy"]⟩

/-- An actual basic Plains printing owned five times. -/
def plainsW : AnalyzedCard :=
  ⟨"i", "Plains", 5, "Basic Land - Plains", none, none, ["W"], 0, ["land"]⟩

/-- A commander spec with a non-land target of 1 and 99 target lands. -/
def specC4 : DeckSpec := ⟨"commander", ["W"], 25, 10, 10, 8, 2, 99⟩

/-- The final deck state of the commander build whose pool holds a real
Plains and one sorcery. -/
def dcC4 : DeckConstruction := build_deck_state specC4 [plainsW, gloryW]

/-- A modern spec whose `target_lands` exceeds the 60-card format size. -/
def specC1 : DeckSpec := ⟨"modern", ["W"], 25, 10, 10, 8, 2, 61⟩

/-- A commander spec with 99 target lands (non-land target of 1). -/
def specC2 : DeckSpec := ⟨"commander", ["W"], 25, 10, 10, 8, 2, 99⟩

/-- A card providing three white pips in a single copy. -/
def cardA10 : AnalyzedCard :=
  ⟨"i", "A", 1, "Sorcery", none, some "\x7bW\x7d\x7bW\x7d\x7bW\x7d", ["W"], 0, ["synergy"]⟩

/-- A card providing one black pip. -/
def cardB10 : AnalyzedCard :=
  ⟨"i", "B", 1, "Sorcery", none, some "\x7bB\x7d", ["B"], 0, ["synergy"]⟩

/-- Commander spec with one target land. -/
def spec10 : DeckSpec := ⟨"commander", ["W", "B"], 25, 10, 10, 8, 2, 1⟩

/-- The C10 pool: three white pips against one black pip. -/
def pool10 : List AnalyzedCard := [cardA10, cardB10]

/-- The deck state after the non-land phase of the C10 build. -/
def dcMid10 : DeckConstruction :=
  ⟨spec10, [("A", 1), ("B", 1)],
    fromListPy (pool10.map fun c => (c.name, c)), [("synergy", 2)]⟩

/-- The three facts the land synthesis needs about a pip dictionary. -/
def PipOk (pc : List (String × ℤ)) : Prop :=
  (∀ p ∈ pc, 0 ≤ p.2) ∧ ((pc.map Prod.fst).Nodup) ∧
  (∀ p ∈ pc, ∃ d ∈ "WUBRG".toList, p.1 = String.mk [d])

/-- The main-deck invariant: non-negative quantities, each bounded by the
owned quantity of the pool card under the same name and by the copy
limit. -/
def MDInv (dc : DeckConstruction) : Prop :=
  (∀ p ∈ dc.main_deck, 0 ≤ p.2) ∧
  (∀ p ∈ dc.main_deck, ∃ c, dlookup dc.available_pool p.1 = some c ∧
    p.2 ≤ c.quantity ∧ p.2 ≤ copyLimit dc.spec)

/-! ### Association-list (Python dict) lemmas -/

theorem dlookup_dinsert {α : Type} (l : List (String × α)) (k : String) (v : α)
    (key : String) :
    dlookup (dinsert l k v) key = if k = key then some v else dlookup l key := by
  induction l with
  | nil => simp [dinsert, dlookup]
  | cons p rest ih =>
    obtain ⟨k', w⟩ := p
    by_cases h : k' = k
    · subst h
      simp [dinsert, dlookup]
      by_cases h2 : k' = key <;> simp [h2]
    · simp only [dinsert, if_neg h]
      by_cases h2 : k' = key
      · subst h2
        have : ¬ k = k' := fun hk => h hk.symm
        simp [dlookup, this]
      · simp [dlookup, h2, ih]

theorem dlookup_mem {α : Type} {l : List (String × α)} {key : String} {v : α}
    (h : dlookup l key = some v) : (key, v) ∈ l := by
  induction l with
  | nil => simp [dlookup] at h
  | cons p rest ih =>
    obtain ⟨k', w⟩ := p
    by_cases hk : k' = key
    · subst hk
      simp [dlookup] at h
      simp [h]
    · simp [dlookup, hk] at h
      exact List.mem_cons_of_mem _ (ih h)

theorem mem_dinsert {α : Type} {l : List (String × α)} {k : String} {v : α}
    {p : String × α} (h : p ∈ dinsert l k v) : p = (k, v) ∨ p ∈ l := by
  induction l with
  | nil => simpa [dinsert] using h
  | cons q rest ih =>
    obtain ⟨k', w⟩ := q
    by_cases hk : k' = k
    · subst hk
      simp [dinsert] at h
      rcases h with h | h
      · left; simp [h]
      · right; exact List.mem_cons_of_mem _ h
    · simp [dinsert, hk] at h
      rcases h with h | h
      · right; simp [h]
      · rcases ih h with h' | h'
        · left; exact h'
        · right; exact List.mem_cons_of_mem _ h'

theorem dget_nonneg {l : List (String × ℤ)} (h : ∀ p ∈ l, 0 ≤ p.2)
    (key : String) : 0 ≤ dget l key 0 := by
  unfold dget
  cases hl : dlookup l key with
  | none => simp
  | some v => simpa using h _ (dlookup_mem hl)

theorem dsum_dinsert (l : List (String × ℤ)) (k : String) (v : ℤ) :
    dsum (dinsert l k v) = dsum l + v - dget l k 0 := by
  induction l with
  | nil => simp [dinsert, dsum, dget, dlookup]
  | cons p rest ih =>
    obtain ⟨k', w⟩ := p
    by_cases hk : k' = k
    · subst hk
      simp [dinsert, dsum, dget, dlookup]
      ring
    · have hne : ¬ k = k' := fun h => hk h.symm
      simp only [dinsert, if_neg hk, dsum, List.map_cons, List.sum_cons] at *
      have : dget ((k', w) :: rest) k 0 = dget rest k 0 := by
        simp [dget, dlookup, hk]
      rw [this]
      have ih' := ih
      simp only [dsum] at ih'
      omega

theorem dkeys_nodup_dinsert {α : Type} {l : List (String × α)} {k : String}
    {v : α} (h : (l.map Prod.fst).Nodup) :
    ((dinsert l k v).map Prod.fst).Nodup := by
  induction l with
  | nil => simp [dinsert]
  | cons p rest ih =>
    obtain ⟨k', w⟩ := p
    by_cases hk : k' = k
    · subst hk
      simpa [dinsert] using h
    · simp only [dinsert, if_neg hk, List.map_cons, List.nodup_cons] at h ⊢
      refine ⟨fun hmem => ?_, ih h.2⟩
      rcases List.mem_map.1 hmem with ⟨q, hq, hfst⟩
      rcases mem_dinsert hq with h' | h'
      · apply hk
        rw [h'] at hfst
        exact hfst.symm
      · exact h.1 (List.mem_map.2 ⟨q, h', hfst⟩)

theorem dlookup_eq_none_of_not_mem {α : Type} {l : List (String × α)}
    {key : String} (h : key ∉ l.map Prod.fst) : dlookup l key = none := by
  induction l with
  | nil => simp [dlookup]
  | cons p rest ih =>
    obtain ⟨k', w⟩ := p
    simp only [List.map_cons, List.mem_cons] at h
    push_neg at h
    have hne : ¬ k' = key := fun hh => h.1 hh.symm
    simp [dlookup, hne, ih h.2]

theorem dlookup_isSome_of_mem {α : Type} {l : List (String × α)}
    {p : String × α} (h : p ∈ l) : (dlookup l p.1).isSome := by
  induction l with
  | nil => simp at h
  | cons q rest ih =>
    rcases List.mem_cons.1 h with h' | h'
    · subst h'
      simp [dlookup]
    · by_cases hk : q.1 = p.1
      · cases q; simp_all [dlookup]
      · cases q; simp [dlookup, hk, ih h']

theorem dlookup_dupdate_of_not_mem_keys {α : Type} (d : List (String × α))
    (other : List (String × α)) (key : String)
    (h : key ∉ other.map Prod.fst) :
    dlookup (dupdate d other) key = dlookup d key := by
  induction other generalizing d with
  | nil => simp [dupdate]
  | cons q rest ih =>
    simp only [List.map_cons, List.mem_cons] at h
    push_neg at h
    have : dupdate d (q :: rest) = dupdate (dinsert d q.1 q.2) rest := by
      simp [dupdate]
    rw [this, ih _ h.2, dlookup_dinsert]
    exact if_neg fun hh => h.1 hh.symm

theorem mem_dupdate {α : Type} {d other : List (String × α)} {p : String × α}
    (h : p ∈ dupdate d other) : p ∈ d ∨ p ∈ other := by
  induction other generalizing d with
  | nil =>
    left
    simpa [dupdate] using h
  | cons q rest ih =>
    have : dupdate d (q :: rest) = dupdate (dinsert d q.1 q.2) rest := by
      simp [dupdate]
    rw [this] at h
    rcases ih h with h' | h'
    · rcases mem_dinsert h' with h'' | h''
      · right; simp [h'']
      · left; exact h''
    · right; exact List.mem_cons_of_mem _ h'

theorem dsum_dupdate_le {d other : List (String × ℤ)}
    (hd : ∀ p ∈ d, 0 ≤ p.2) (hother : ∀ q ∈ other, 0 ≤ q.2) :
    dsum (dupdate d other) ≤ dsum d + dsum other := by
  induction other generalizing d with
  | nil => simp [dupdate, dsum]
  | cons q rest ih =>
    have hstep : dupdate d (q :: rest) = dupdate (dinsert d q.1 q.2) rest := by
      simp [dupdate]
    rw [hstep]
    have hd2 : ∀ p ∈ dinsert d q.1 q.2, 0 ≤ p.2 := by
      intro p hp
      rcases mem_dinsert hp with h | h
      · have := hother q (by simp)
        simp [h]
        omega
      · exact hd p h
    have hih := ih hd2 (fun q hq => hother q (List.mem_cons_of_mem _ hq))
    have hins := dsum_dinsert d q.1 q.2
    have hget := dget_nonneg hd q.1
    have hrest : dsum (q :: rest) = q.2 + dsum rest := by simp [dsum]
    omega

/-! ### Scoring lemmas -/

theorem scoreRoles_eq_sum (dc : DeckConstruction) (roles : List String) (s : ℚ) :
    scoreRoles dc roles s = s + (roles.map (roleBonus dc)).sum := by
  induction roles generalizing s with
  | nil => simp [scoreRoles]
  | cons role rest ih =>
    simp only [scoreRoles, List.map_cons, List.sum_cons]
    cases ht : roleTarget dc.spec role with
    | none => rw [ih]; simp [roleBonus, ht]
    | some target =>
      by_cases hlt : dget dc.role_counts role 0 < target
      · simp only [hlt, if_true, ih]
        simp [roleBonus, ht, hlt]
        ring
      · simp only [hlt, if_false, ih]
        simp [roleBonus, ht, hlt]

theorem score_card_eq (card : AnalyzedCard) (dc : DeckConstruction) :
    score_card card dc =
      1 + (card.roles.map (roleBonus dc)).sum -
        (if card.mana_value > 5 then (card.mana_value - 5) * (1/2) else 0) := by
  unfold score_card
  rw [scoreRoles_eq_sum]
  by_cases h : card.mana_value > 5 <;> simp [h]

/-! ### `add_card` and `bumpRoles` lemmas -/

theorem dget_bumpRoles (rc : List (String × ℤ)) (roles : List String) (r : String) :
    dget (bumpRoles rc roles) r 0 = dget rc r 0 + (roles.count r : ℤ) := by
  induction roles generalizing rc with
  | nil => simp [bumpRoles]
  | cons role rest ih =>
    simp only [bumpRoles]
    rw [ih]
    have hd : dget (dinsert rc role (dget rc role 0 + 1)) r 0 =
        dget rc r 0 + (if role = r then 1 else 0) := by
      unfold dget
      rw [dlookup_dinsert]
      by_cases hr : role = r <;> simp [hr, dget]
    rw [hd]
    by_cases hr : role = r
    · subst hr
      simp [List.count_cons]
      omega
    · have hr' : ¬ (r = role) := fun h => hr h.symm
      simp [List.count_cons, hr, hr']

theorem add_card_pool_spec (dc : DeckConstruction) (n : String) :
    (dc.add_card n).2.available_pool = dc.available_pool ∧
    (dc.add_card n).2.spec = dc.spec ∧
    (dc.add_card n).2.role_counts = bumpRoles dc.role_counts
      (match dlookup dc.available_pool n with
       | some c => if dget dc.main_deck n 0 ≥ copyLimit dc.spec ∨
            dget dc.main_deck n 0 ≥ c.quantity then [] else c.roles
       | none => []) := by
  unfold DeckConstruction.add_card
  cases h : dlookup dc.available_pool n with
  | none => simp [bumpRoles]
  | some c =>
    by_cases hcond : dget dc.main_deck n 0 ≥ copyLimit dc.spec ∨
        dget dc.main_deck n 0 ≥ c.quantity
    · simp [hcond, bumpRoles]
    · simp [hcond]

theorem add_card_total_succ (dc : DeckConstruction) (n : String) :
    (dc.add_card n).2.total_cards = dc.total_cards ∨
    ((dc.add_card n).1 = true ∧
      (dc.add_card n).2.total_cards = dc.total_cards + 1) := by
  unfold DeckConstruction.add_card
  cases h : dlookup dc.available_pool n with
  | none => left; rfl
  | some c =>
    by_cases hcond : dget dc.main_deck n 0 ≥ copyLimit dc.spec ∨
        dget dc.main_deck n 0 ≥ c.quantity
    · left; simp [hcond]
    · right
      refine ⟨by simp [hcond], ?_⟩
      simp only [hcond, if_false]
      show dsum (dinsert dc.main_deck n (dget dc.main_deck n 0 + 1)) =
        dsum dc.main_deck + 1
      rw [dsum_dinsert]
      ring

/-- C8: the full contract of `addCard`. -/
theorem C8_add_card_contract (dc : DeckConstruction) (card_name : String) :
    ((dc.spec.format = "commander" → copyLimit dc.spec = 1) ∧
     (dc.spec.format ≠ "commander" → copyLimit dc.spec = 4)) ∧
    (dlookup dc.available_pool card_name = none →
      dc.add_card card_name = (false, dc)) ∧
    (∀ card, dlookup dc.available_pool card_name = some card →
      ((dget dc.main_deck card_name 0 ≥ copyLimit dc.spec ∨
        dget dc.main_deck card_name 0 ≥ card.quantity) →
        dc.add_card card_name = (false, dc)) ∧
      (card.roles.Nodup →
       dget dc.main_deck card_name 0 < copyLimit dc.spec →
       dget dc.main_deck card_name 0 < card.quantity →
        (dc.add_card card_name).1 = true ∧
        dlookup (dc.add_card card_name).2.main_deck card_name =
          some (dget dc.main_deck card_name 0 + 1) ∧
        (∀ k, k ≠ card_name →
          dlookup (dc.add_card card_name).2.main_deck k =
            dlookup dc.main_deck k) ∧
        (∀ r, r ∈ card.roles →
          dget (dc.add_card card_name).2.role_counts r 0 =
            dget dc.role_counts r 0 + 1) ∧
        (∀ r, r ∉ card.roles →
          dget (dc.add_card card_name).2.role_counts r 0 =
            dget dc.role_counts r 0))) := by
  refine ⟨⟨fun h => by simp [copyLimit, h], fun h => by simp [copyLimit, h]⟩, ?_, ?_⟩
  · intro h
    unfold DeckConstruction.add_card
    rw [h]
  · intro card hc
    constructor
    · intro hcond
      unfold DeckConstruction.add_card
      rw [hc]
      simp [hcond]
    · intro hnodup hlim hqty
      have hcond : ¬ (dget dc.main_deck card_name 0 ≥ copyLimit dc.spec ∨
          dget dc.main_deck card_name 0 ≥ card.quantity) := by omega
      have hstate : (dc.add_card card_name).2 =
          { dc with
            main_deck := dinsert dc.main_deck card_name
              (dget dc.main_deck card_name 0 + 1)
            role_counts := bumpRoles dc.role_counts card.roles } := by
        unfold DeckConstruction.add_card
        rw [hc]
        simp [hcond]
      have hret : (dc.add_card card_name).1 = true := by
        unfold DeckConstruction.add_card
        rw [hc]
        simp [hcond]
      refine ⟨hret, ?_, ?_, ?_, ?_⟩
      · rw [hstate]
        show dlookup (dinsert dc.main_deck card_name _) card_name = _
        rw [dlookup_dinsert]
        simp
      · intro k hk
        rw [hstate]
        show dlookup (dinsert dc.main_deck card_name _) k = _
        rw [dlookup_dinsert, if_neg (fun h : card_name = k => hk h.symm)]
      · intro r hr
        rw [hstate]
        show dget (bumpRoles dc.role_counts card.roles) r 0 = _
        rw [dget_bumpRoles]
        have : card.roles.count r = 1 := List.count_eq_one_of_mem hnodup hr
        rw [this]
        simp
      · intro r hr
        rw [hstate]
        show dget (bumpRoles dc.role_counts card.roles) r 0 = _
        rw [dget_bumpRoles]
        have : card.roles.count r = 0 := List.count_eq_zero_of_not_mem hr
        rw [this]
        simp

/-! ### C7 / C6: the scoring contract -/

/-- C7: `score_card` returns exactly the base score 1.0, plus, for each
role of the card with a configured target (removal, ramp, draw,
threat ↦ creatures target, board_wipe) whose running count is strictly
below the target, a bonus of `10 × (1 − count/target)`, minus a penalty of
`0.5 × (manaValue − 5)` exactly when `manaValue > 5`.  Determinism is
immediate: `score_card` is a pure function of the card and deck state. -/
theorem C7_score_card_closed_form (card : AnalyzedCard) (dc : DeckConstruction) :
    score_card card dc =
      1 + (card.roles.map (roleBonus dc)).sum -
        (if card.mana_value > 5 then (card.mana_value - 5) * (1/2) else 0) :=
  score_card_eq card dc

theorem sum_roleBonus_filter (dc : DeckConstruction) (role : String)
    (hb : roleBonus dc role = 0) (roles : List String) :
    ((roles.filter fun r => r ≠ role).map (roleBonus dc)).sum =
      (roles.map (roleBonus dc)).sum := by
  induction roles with
  | nil => simp
  | cons r rest ih =>
    simp only [ne_eq, decide_not, List.filter_cons] at ih ⊢
    by_cases hr : r = role
    · subst hr
      simp [ih, hb]
    · simp [hr, ih]

/-- C6: a role whose configured target is 0 contributes no bonus in
`score_card` — the `current < target` guard skips the branch (so the
division `count/target` is never evaluated) whenever the running counts
are non-negative: dropping such a role from the card leaves the score
unchanged.  Totality never fails: `score_card` is a total function. -/
theorem C6_zero_target_role_skipped (card : AnalyzedCard)
    (dc : DeckConstruction) (role : String)
    (hcounts : ∀ p ∈ dc.role_counts, 0 ≤ p.2)
    (htarget : roleTarget dc.spec role = some 0) :
    score_card card dc =
      score_card { card with roles := card.roles.filter fun r => r ≠ role } dc := by
  have hb : roleBonus dc role = 0 := by
    unfold roleBonus
    rw [htarget]
    have h0 := dget_nonneg hcounts role
    have hnot : ¬ dget dc.role_counts role 0 < 0 := by omega
    simp [hnot]
  rw [score_card_eq, score_card_eq]
  simp only
  rw [sum_roleBonus_filter dc role hb]

theorem C6_witness :
    score_card ⟨"i", "c", 1, "Instant", none, none, [], 2, ["removal"]⟩
      ⟨⟨"modern", [], 0, 0, 0, 0, 0, 0⟩, [], [], []⟩ =
    score_card ⟨"i", "c", 1, "Instant", none, none, [], 2,
        ["removal"].filter fun r => r ≠ "removal"⟩
      ⟨⟨"modern", [], 0, 0, 0, 0, 0, 0⟩, [], [], []⟩ :=
  C6_zero_target_role_skipped
    ⟨"i", "c", 1, "Instant", none, none, [], 2, ["removal"]⟩
    ⟨⟨"modern", [], 0, 0, 0, 0, 0, 0⟩, [], [], []⟩ "removal"
    (by simp) (by simp [roleTarget])

/-! ### C9: the role classifier -/

theorem classifierBaseRoles_congr (card card' : AnalyzedCard)
    (htl : card.type_line = card'.type_line)
    (hot : card.oracle_text = card'.oracle_text) :
    classifierBaseRoles card = classifierBaseRoles card' := by
  obtain ⟨i1, n1, q1, tl1, ot1, mc1, ci1, mv1, r1⟩ := card
  obtain ⟨i2, n2, q2, tl2, ot2, mc2, ci2, mv2, r2⟩ := card'
  simp only at htl hot
  subst htl
  subst hot
  rfl

theorem mem_classifierBaseRoles (card : AnalyzedCard) (s : String)
    (h : s ∈ classifierBaseRoles card) :
    s ∈ ["ramp", "draw", "tutor", "board_wipe", "removal", "disruption",
         "protection", "anthem", "threat", "land"] := by
  unfold classifierBaseRoles at h
  simp only [List.mem_map] at h
  obtain ⟨p, hp, hps⟩ := h
  have hmem := List.mem_of_mem_filter hp
  subst hps
  simp only [List.mem_cons, List.not_mem_nil, or_false] at hmem
  rcases hmem with h | h | h | h | h | h | h | h | h | h <;> simp [h]

/-- C9: classification is a pure function of the type line and rules text
(identical on any two cards agreeing there — in particular on two calls
with the same card); its result is sorted, non-empty, and equals
`["synergy"]` exactly when no classification rule fired. -/
theorem C9_classifier_contract (card card' : AnalyzedCard)
    (htl : card.type_line = card'.type_line)
    (hot : card.oracle_text = card'.oracle_text) :
    analyze_card_roles card = analyze_card_roles card' ∧
    List.Sorted (fun a b : String => a ≤ b) (analyze_card_roles card) ∧
    analyze_card_roles card ≠ [] ∧
    (analyze_card_roles card = ["synergy"] ↔ classifierBaseRoles card = []) := by
  refine ⟨?_, ?_, ?_, ?_⟩
  · unfold analyze_card_roles
    rw [classifierBaseRoles_congr card card' htl hot]
  · exact List.sorted_insertionSort _ _
  · intro h
    unfold analyze_card_roles at h
    have hp := List.perm_insertionSort (fun a b : String => a ≤ b)
      (if (classifierBaseRoles card).isEmpty then ["synergy"]
       else classifierBaseRoles card)
    rw [h] at hp
    have hnil := hp.symm.eq_nil
    by_cases hb : (classifierBaseRoles card).isEmpty
    · simp [hb] at hnil
    · rw [if_neg hb] at hnil
      exact hb (by simp [hnil])
  · constructor
    · intro h
      by_contra hb
      have hbne : ¬ (classifierBaseRoles card).isEmpty := by
        simpa [List.isEmpty_iff] using hb
      unfold analyze_card_roles at h
      rw [if_neg hbne] at h
      have hp := List.perm_insertionSort (fun a b : String => a ≤ b)
        (classifierBaseRoles card)
      rw [h] at hp
      have hsing : ["synergy"] = classifierBaseRoles card :=
        (List.perm_singleton.1 hp.symm).symm
      have hmem : "synergy" ∈ classifierBaseRoles card := by
        rw [← hsing]
        simp
      have := mem_classifierBaseRoles card "synergy" hmem
      simp at this
    · intro h
      unfold analyze_card_roles
      rw [h]
      simp [List.insertionSort, List.orderedInsert]

theorem C9_witness :
    (analyze_card_roles ⟨"i", "c", 1, "Instant",
        some "Destroy target creature. Draw a card.", none, [], 2, []⟩ =
      analyze_card_roles ⟨"i", "c", 1, "Instant",
        some "Destroy target creature. Draw a card.", none, [], 2, []⟩) ∧
    List.Sorted (fun a b : String => a ≤ b)
      (analyze_card_roles ⟨"i", "c", 1, "Instant",
        some "Destroy target creature. Draw a card.", none, [], 2, []⟩) ∧
    analyze_card_roles ⟨"i", "c", 1, "Instant",
        some "Destroy target creature. Draw a card.", none, [], 2, []⟩ ≠ [] ∧
    (analyze_card_roles ⟨"i", "c", 1, "Instant",
        some "Destroy target creature. Draw a card.", none, [], 2, []⟩ =
        ["synergy"] ↔
      classifierBaseRoles ⟨"i", "c", 1, "Instant",
        some "Destroy target creature. Draw a card.", none, [], 2, []⟩ = []) :=
  C9_classifier_contract
    ⟨"i", "c", 1, "Instant", some "Destroy target creature. Draw a card.",
      none, [], 2, []⟩
    ⟨"i", "c", 1, "Instant", some "Destroy target creature. Draw a card.",
      none, [], 2, []⟩ rfl rfl

/-! ### C3: the greedy non-land selection loop -/

theorem pickFold_none_acc {dc : DeckConstruction}
    {l : List (String × AnalyzedCard)} {b : Option String × ℚ}
    (h : (pickFold dc l b).1 = none) : b.1 = none := by
  induction l generalizing b with
  | nil => exact h
  | cons p rest ih =>
    simp only [pickFold] at h
    by_cases hc : dget dc.main_deck p.1 0 < p.2.quantity ∧
        dget dc.main_deck p.1 0 < copyLimit dc.spec ∧
        p.2.roles.contains "land" = false ∧ score_card p.2 dc > b.2
    · rw [if_pos hc] at h
      exact absurd (ih h) (by simp)
    · rw [if_neg hc] at h
      exact ih h

theorem pickFold_cond_iff (dc : DeckConstruction) (p : String × AnalyzedCard)
    (s : ℚ) :
    (dget dc.main_deck p.1 0 < p.2.quantity ∧
      dget dc.main_deck p.1 0 < copyLimit dc.spec ∧
      p.2.roles.contains "land" = false ∧ score_card p.2 dc > s) ↔
    (addableNonland dc p ∧ s < score_card p.2 dc) := by
  unfold addableNonland
  constructor
  · rintro ⟨h1, h2, h3, h4⟩
    exact ⟨⟨h1, h2, h3⟩, h4⟩
  · rintro ⟨⟨h1, h2, h3⟩, h4⟩
    exact ⟨h1, h2, h3, h4⟩

theorem pickFold_none_iff (dc : DeckConstruction)
    (l : List (String × AnalyzedCard)) (s : ℚ) :
    (pickFold dc l ((none : Option String), s)).1 = none ↔
      ∀ p ∈ l, addableNonland dc p → score_card p.2 dc ≤ s := by
  induction l generalizing s with
  | nil => simp [pickFold]
  | cons p rest ih =>
    simp only [pickFold]
    by_cases hc : dget dc.main_deck p.1 0 < p.2.quantity ∧
        dget dc.main_deck p.1 0 < copyLimit dc.spec ∧
        p.2.roles.contains "land" = false ∧ score_card p.2 dc > s
    · rw [if_pos hc]
      have hc' := (pickFold_cond_iff dc p s).1 hc
      constructor
      · intro h
        exact absurd (pickFold_none_acc h) (by simp)
      · intro h
        exact absurd (h p (by simp) hc'.1) (by have := hc'.2; intro hh; linarith)
    · rw [if_neg hc]
      rw [ih]
      constructor
      · intro h
        intro q hq hadd
        rcases List.mem_cons.1 hq with hq' | hq'
        · subst hq'
          by_contra hgt
          exact hc ((pickFold_cond_iff dc q s).2 ⟨hadd, by linarith⟩)
        · exact h q hq' hadd
      · intro h q hq hadd
        exact h q (List.mem_cons_of_mem _ hq) hadd

theorem pickFold_characterization (dc : DeckConstruction)
    (l : List (String × AnalyzedCard)) (b : Option String) (s : ℚ) :
    (pickFold dc l (b, s) = (b, s) ∧
      ∀ p ∈ l, addableNonland dc p → score_card p.2 dc ≤ s) ∨
    (∃ l1 n c l2, l = l1 ++ (n, c) :: l2 ∧
      pickFold dc l (b, s) = (some n, score_card c dc) ∧
      addableNonland dc (n, c) ∧ s < score_card c dc ∧
      (∀ p ∈ l1, addableNonland dc p → score_card p.2 dc < score_card c dc) ∧
      (∀ p ∈ l2, addableNonland dc p → score_card p.2 dc ≤ score_card c dc)) := by
  induction l generalizing b s with
  | nil =>
    left
    exact ⟨rfl, by simp⟩
  | cons p rest ih =>
    simp only [pickFold]
    by_cases hc : dget dc.main_deck p.1 0 < p.2.quantity ∧
        dget dc.main_deck p.1 0 < copyLimit dc.spec ∧
        p.2.roles.contains "land" = false ∧ score_card p.2 dc > s
    · rw [if_pos hc]
      have hc' := (pickFold_cond_iff dc p s).1 hc
      rcases ih (some p.1) (score_card p.2 dc) with ⟨heq, hall⟩ | hr
      · right
        refine ⟨[], p.1, p.2, rest, by simp, by rw [heq], hc'.1, hc'.2,
          by simp, hall⟩
      · obtain ⟨l1, n, c, l2, hsplit, hres, haddable, hlt, hearly, hlate⟩ := hr
        right
        refine ⟨p :: l1, n, c, l2, by rw [hsplit]; rfl, hres, haddable,
          lt_trans hc'.2 hlt, ?_, hlate⟩
        intro q hq hadd
        rcases List.mem_cons.1 hq with hq' | hq'
        · subst hq'
          exact hlt
        · exact hearly q hq' hadd
    · rw [if_neg hc]
      rcases ih b s with ⟨heq, hall⟩ | hr
      · left
        refine ⟨heq, ?_⟩
        intro q hq hadd
        rcases List.mem_cons.1 hq with hq' | hq'
        · subst hq'
          by_contra hgt
          exact hc ((pickFold_cond_iff dc q s).2 ⟨hadd, by linarith⟩)
        · exact hall q hq' hadd
      · obtain ⟨l1, n, c, l2, hsplit, hres, haddable, hlt, hearly, hlate⟩ := hr
        right
        refine ⟨p :: l1, n, c, l2, by rw [hsplit]; rfl, hres, haddable, hlt,
          ?_, hlate⟩
        intro q hq hadd
        rcases List.mem_cons.1 hq with hq' | hq'
        · subst hq'
          by_contra hge
          exact hc ((pickFold_cond_iff dc q s).2 ⟨hadd, by linarith⟩)
        · exact hearly q hq' hadd

theorem nodupKeys_fromListPy {α : Type} (l : List (String × α)) :
    ((fromListPy l).map Prod.fst).Nodup := by
  have h : ∀ (acc : List (String × α)), (acc.map Prod.fst).Nodup →
      ((l.foldl (fun d p => dinsert d p.1 p.2) acc).map Prod.fst).Nodup := by
    induction l with
    | nil => intro acc hacc; exact hacc
    | cons p rest ih =>
      intro acc hacc
      exact ih _ (dkeys_nodup_dinsert hacc)
  exact h [] (by simp)

theorem dlookup_of_mem_nodup {α : Type} {l : List (String × α)}
    {k : String} {v : α} (hnd : (l.map Prod.fst).Nodup) (h : (k, v) ∈ l) :
    dlookup l k = some v := by
  induction l with
  | nil => simp at h
  | cons p rest ih =>
    obtain ⟨k', w⟩ := p
    simp only [List.map_cons, List.nodup_cons] at hnd
    rcases List.mem_cons.1 h with h' | h'
    · have hk : k = k' := congrArg Prod.fst h'
      have hv : v = w := congrArg Prod.snd h'
      subst hk
      subst hv
      simp [dlookup]
    · have hk : ¬ k' = k := by
        intro hkk
        subst hkk
        exact hnd.1 (List.mem_map.2 ⟨(k', v), h', rfl⟩)
      simp only [dlookup, if_neg hk]
      exact ih hnd.2 h'

theorem pick_some_total (dc : DeckConstruction) (n : String)
    (hnd : (dc.available_pool.map Prod.fst).Nodup)
    (h : pickBest dc = some n) :
    (dc.add_card n).2.total_cards = dc.total_cards + 1 := by
  unfold pickBest at h
  rcases pickFold_characterization dc dc.available_pool none (-1) with
    ⟨heq, _⟩ | ⟨l1, n', c, l2, hsplit, hres, haddable, _, _, _⟩
  · rw [heq] at h
    simp at h
  · rw [hres] at h
    simp only at h
    have hn : n' = n := by simpa using h
    subst hn
    have hmem : (n', c) ∈ dc.available_pool := by
      rw [hsplit]
      simp
    have hlk : dlookup dc.available_pool n' = some c := dlookup_of_mem_nodup hnd hmem
    obtain ⟨h1, h2, _⟩ := haddable
    unfold DeckConstruction.add_card
    rw [hlk]
    simp only at h1 h2
    have hcond : ¬ (dget dc.main_deck n' 0 ≥ copyLimit dc.spec ∨
        dget dc.main_deck n' 0 ≥ c.quantity) := by omega
    simp only [hcond, if_false]
    show dsum (dinsert dc.main_deck n' (dget dc.main_deck n' 0 + 1)) =
      dsum dc.main_deck + 1
    rw [dsum_dinsert]
    ring

theorem nonlandLoop_complete (t : ℤ) (fuel : ℕ) (dc : DeckConstruction)
    (hnd : (dc.available_pool.map Prod.fst).Nodup)
    (hfuel : (t - dc.total_cards).toNat ≤ fuel) :
    t ≤ (nonlandLoop t fuel dc).total_cards ∨
      pickBest (nonlandLoop t fuel dc) = none := by
  induction fuel generalizing dc with
  | zero =>
    left
    simp only [nonlandLoop]
    omega
  | succ fuel ih =>
    simp only [nonlandLoop]
    by_cases hlt : dc.total_cards < t
    · rw [if_pos hlt]
      cases hp : pickBest dc with
      | none => right; exact hp
      | some n =>
        have htot := pick_some_total dc n hnd hp
        have hnd' : (((dc.add_card n).2.available_pool).map Prod.fst).Nodup := by
          rw [(add_card_pool_spec dc n).1]
          exact hnd
        exact ih (dc.add_card n).2 hnd' (by omega)
    · rw [if_neg hlt]
      left
      omega

/-- C3 (amended): the non-land selection loop adds, on each iteration
where the target is not yet reached and some addable non-land candidate
has score strictly above the `-1.0` sentinel, the single highest-scoring
such candidate (first-seen order on ties), and terminates before the
target only when no addable non-land candidate scores above `-1.0`.
(The original claim, without the score qualification, fails: a candidate
whose score is ≤ -1.0 is never selected — see the counterexample.) -/
theorem C3_greedy_selection_amended :
    (∀ dc : DeckConstruction,
      (pickBest dc = none ↔
        ∀ p ∈ dc.available_pool, addableNonland dc p → score_card p.2 dc ≤ -1) ∧
      (∀ n, pickBest dc = some n →
        ∃ l1 c l2, dc.available_pool = l1 ++ (n, c) :: l2 ∧
          addableNonland dc (n, c) ∧ -1 < score_card c dc ∧
          (∀ p ∈ l1, addableNonland dc p →
            score_card p.2 dc < score_card c dc) ∧
          (∀ p ∈ l2, addableNonland dc p →
            score_card p.2 dc ≤ score_card c dc)) ∧
      (∀ t fuel n, dc.total_cards < t → pickBest dc = some n →
        nonlandLoop t (fuel + 1) dc = nonlandLoop t fuel (dc.add_card n).2)) ∧
    (∀ spec pool,
      (nonlandLoop (nonLandTarget spec) (nonLandTarget spec).toNat
          (DeckConstruction.init spec pool)).total_cards < nonLandTarget spec →
      pickBest (nonlandLoop (nonLandTarget spec) (nonLandTarget spec).toNat
          (DeckConstruction.init spec pool)) = none) := by
  constructor
  · intro dc
    refine ⟨?_, ?_, ?_⟩
    · unfold pickBest
      exact pickFold_none_iff dc dc.available_pool (-1)
    · intro n h
      unfold pickBest at h
      rcases pickFold_characterization dc dc.available_pool none (-1) with
        ⟨heq, _⟩ | ⟨l1, n', c, l2, hsplit, hres, haddable, hlt, hearly, hlate⟩
      · rw [heq] at h
        simp at h
      · rw [hres] at h
        simp only at h
        have hn : n' = n := by simpa using h
        subst hn
        exact ⟨l1, c, l2, hsplit, haddable, hlt, hearly, hlate⟩
    · intro t fuel n hlt hp
      simp only [nonlandLoop, if_pos hlt, hp]
  · intro spec pool hshort
    have hnd : ((DeckConstruction.init spec pool).available_pool.map
        Prod.fst).Nodup := nodupKeys_fromListPy _
    have hinit : (DeckConstruction.init spec pool).total_cards = 0 := by
      simp [DeckConstruction.init, DeckConstruction.total_cards, dsum]
    rcases nonlandLoop_complete (nonLandTarget spec) (nonLandTarget spec).toNat
        (DeckConstruction.init spec pool) hnd (by omega) with h | h
    · omega
    · exact h

theorem roleTarget_synergy (spec : DeckSpec) :
    roleTarget spec "synergy" = none := rfl

theorem score_bigW :
    score_card bigW (DeckConstruction.init specC3 [bigW]) = -1 := by
  have hs : scoreRoles (DeckConstruction.init specC3 [bigW]) bigW.roles 1 = 1 := by
    show scoreRoles (DeckConstruction.init specC3 [bigW]) ["synergy"] 1 = 1
    simp [scoreRoles, roleTarget_synergy]
  unfold score_card
  rw [hs, if_pos (show bigW.mana_value > 5 by norm_num [bigW])]
  norm_num [bigW]

theorem pickBest_initC3 :
    pickBest (DeckConstruction.init specC3 [bigW]) = none := by
  unfold pickBest
  have havail : (DeckConstruction.init specC3 [bigW]).available_pool =
      [("Big", bigW)] := rfl
  rw [havail]
  unfold pickFold
  rw [if_neg ?hc]
  case hc =>
    rintro ⟨h1, h2, h3, h4⟩
    rw [score_bigW] at h4
    norm_num at h4
  unfold pickFold
  rfl

theorem dcC3_eq : dcC3 = DeckConstruction.init specC3 [bigW] := by
  unfold dcC3
  have ht : (nonLandTarget specC3).toNat = 1 := by decide
  rw [ht]
  show (if (DeckConstruction.init specC3 [bigW]).total_cards <
      nonLandTarget specC3 then
    match pickBest (DeckConstruction.init specC3 [bigW]) with
    | some best_card_name =>
        nonlandLoop (nonLandTarget specC3) 0
          ((DeckConstruction.init specC3 [bigW]).add_card best_card_name).2
    | none => DeckConstruction.init specC3 [bigW]
    else DeckConstruction.init specC3 [bigW]) = _
  rw [pickBest_initC3, if_pos (by decide)]

/-- C3 counterexample: with a non-land target of 1 and a pool holding one
addable non-land card of score exactly `-1.0`, the selection loop
terminates with an empty deck even though an addable non-land candidate
exists — refuting the claim that early termination happens only when no
card is addable. -/
theorem C3_counterexample :
    dcC3.total_cards < nonLandTarget specC3 ∧
    ("Big", bigW) ∈ dcC3.available_pool ∧
    addableNonland dcC3 ("Big", bigW) := by
  rw [dcC3_eq]
  exact ⟨by decide, by decide, by decide⟩

theorem C3_witness : pickBest dcC3 = none := by
  rw [dcC3_eq]
  refine (C3_greedy_selection_amended.1
    (DeckConstruction.init specC3 [bigW])).1.mpr ?_
  intro p hp hadd
  have havail : (DeckConstruction.init specC3 [bigW]).available_pool =
      [("Big", bigW)] := rfl
  rw [havail] at hp
  have hp' : p = ("Big", bigW) := by
    simpa using hp
  subst hp'
  rw [score_bigW]

theorem C8_witness :
    (dcW.add_card "Bear").1 = true ∧
    dlookup (dcW.add_card "Bear").2.main_deck "Bear" =
      some (dget dcW.main_deck "Bear" 0 + 1) ∧
    dget (dcW.add_card "Bear").2.role_counts "threat" 0 =
      dget dcW.role_counts "threat" 0 + 1 := by
  have h := ((C8_add_card_contract dcW "Bear").2.2 bearW (by decide)).2
    (by decide) (by decide) (by decide)
  exact ⟨h.1, h.2.1, h.2.2.2.1 "threat" (by decide)⟩

/-! ### C4: the role-count bookkeeping invariant -/

theorem roleSumL_dinsert (avail : List (String × AnalyzedCard)) (r : String)
    (md : List (String × ℤ)) (k : String) (v : ℤ) :
    ((dinsert md k v).map fun p =>
        if r ∈ rolesOfName avail p.1 then p.2 else 0).sum =
      ((md.map fun p => if r ∈ rolesOfName avail p.1 then p.2 else 0).sum) +
        (if r ∈ rolesOfName avail k then v - dget md k 0 else 0) := by
  induction md with
  | nil => simp [dinsert, dget, dlookup]
  | cons p rest ih =>
    obtain ⟨k', w⟩ := p
    by_cases hk : k' = k
    · subst hk
      have hd : dinsert ((k', w) :: rest) k' v = (k', v) :: rest := by
        simp [dinsert]
      have hg : dget ((k', w) :: rest) k' 0 = w := by
        simp [dget, dlookup]
      rw [hd, hg, List.map_cons, List.sum_cons, List.map_cons, List.sum_cons]
      by_cases hr : r ∈ rolesOfName avail k' <;> simp [hr] <;> ring
    · simp only [dinsert, if_neg hk, List.map_cons, List.sum_cons]
      rw [ih]
      have : dget ((k', w) :: rest) k 0 = dget rest k 0 := by
        simp [dget, dlookup, hk]
      rw [this]
      ring

theorem add_card_RoleInv (dc : DeckConstruction) (n : String)
    (hpool : ∀ k c, dlookup dc.available_pool k = some c → c.roles.Nodup)
    (hinv : ∀ r, dget dc.role_counts r 0 = roleSum dc r) :
    ∀ r, dget (dc.add_card n).2.role_counts r 0 = roleSum (dc.add_card n).2 r := by
  intro r
  unfold DeckConstruction.add_card
  cases hlk : dlookup dc.available_pool n with
  | none => exact hinv r
  | some c =>
    by_cases hcond : dget dc.main_deck n 0 ≥ copyLimit dc.spec ∨
        dget dc.main_deck n 0 ≥ c.quantity
    · simp only [hcond, if_true]
      exact hinv r
    · simp only [hcond, if_false]
      show dget (bumpRoles dc.role_counts c.roles) r 0 =
        roleSum { dc with
          main_deck := dinsert dc.main_deck n (dget dc.main_deck n 0 + 1)
          role_counts := bumpRoles dc.role_counts c.roles } r
      unfold roleSum
      simp only
      rw [roleSumL_dinsert, dget_bumpRoles]
      have hroles : rolesOfName dc.available_pool n = c.roles := by
        unfold rolesOfName
        rw [hlk]
      rw [hroles]
      have hcount : (c.roles.count r : ℤ) = if r ∈ c.roles then 1 else 0 := by
        by_cases hr : r ∈ c.roles
        · rw [List.count_eq_one_of_mem (hpool n c hlk) hr, if_pos hr]
          norm_num
        · rw [List.count_eq_zero_of_not_mem hr, if_neg hr]
          norm_num
      rw [hcount]
      have := hinv r
      unfold roleSum at this
      by_cases hr : r ∈ c.roles <;> simp [hr] <;> omega

theorem applyAdds_RoleInv (names : List String) (dc : DeckConstruction)
    (hpool : ∀ k c, dlookup dc.available_pool k = some c → c.roles.Nodup)
    (hinv : ∀ r, dget dc.role_counts r 0 = roleSum dc r) :
    ∀ r, dget (applyAdds dc names).role_counts r 0 =
      roleSum (applyAdds dc names) r := by
  induction names generalizing dc with
  | nil => exact hinv
  | cons n rest ih =>
    have hstep := add_card_RoleInv dc n hpool hinv
    have hpool' : ∀ k c, dlookup (dc.add_card n).2.available_pool k = some c →
        c.roles.Nodup := by
      rw [(add_card_pool_spec dc n).1]
      exact hpool
    exact ih (dc.add_card n).2 hpool' hstep

theorem nonlandLoop_RoleInv (t : ℤ) (fuel : ℕ) (dc : DeckConstruction)
    (hpool : ∀ k c, dlookup dc.available_pool k = some c → c.roles.Nodup)
    (hinv : ∀ r, dget dc.role_counts r 0 = roleSum dc r) :
    (∀ r, dget (nonlandLoop t fuel dc).role_counts r 0 =
      roleSum (nonlandLoop t fuel dc) r) ∧
    (∀ k c, dlookup (nonlandLoop t fuel dc).available_pool k = some c →
      c.roles.Nodup) := by
  induction fuel generalizing dc with
  | zero => exact ⟨hinv, hpool⟩
  | succ fuel ih =>
    simp only [nonlandLoop]
    by_cases hlt : dc.total_cards < t
    · rw [if_pos hlt]
      cases hp : pickBest dc with
      | none => exact ⟨hinv, hpool⟩
      | some n =>
        have hpool' : ∀ k c, dlookup (dc.add_card n).2.available_pool k =
            some c → c.roles.Nodup := by
          rw [(add_card_pool_spec dc n).1]
          exact hpool
        exact ih (dc.add_card n).2 hpool' (add_card_RoleInv dc n hpool hinv)
    · rw [if_neg hlt]
      exact ⟨hinv, hpool⟩

theorem landPhase1_RoleInv (spec : DeckSpec) (pool : List AnalyzedCard)
    (dc : DeckConstruction) (lid : List (String × ℤ))
    (hpool : ∀ k c, dlookup dc.available_pool k = some c → c.roles.Nodup)
    (hinv : ∀ r, dget dc.role_counts r 0 = roleSum dc r) :
    ∀ r, dget (landPhase1 spec pool dc lid).1.role_counts r 0 =
      roleSum (landPhase1 spec pool dc lid).1 r := by
  induction pool generalizing dc lid with
  | nil => exact hinv
  | cons card rest ih =>
    simp only [landPhase1]
    by_cases h1 : card.roles.contains "land" ∧
        dlookup dc.main_deck card.name = none
    · rw [if_pos h1]
      by_cases h2 : (["plains", "island", "swamp", "mountain", "forest"].any
          fun lt => strContains (String.mk (lowerChars card.type_line)) lt) = false
      · rw [if_pos h2]
        by_cases h3 : (dsum lid : ℚ) < (spec.target_lands : ℚ) * (1/2)
        · rw [if_pos h3]
          have hpool' : ∀ k c,
              dlookup (dc.add_card card.name).2.available_pool k = some c →
              c.roles.Nodup := by
            rw [(add_card_pool_spec dc card.name).1]
            exact hpool
          exact ih (dc.add_card card.name).2 _ hpool'
            (add_card_RoleInv dc card.name hpool hinv)
        · rw [if_neg h3]
          exact ih dc lid hpool hinv
      · rw [if_neg h2]
        exact ih dc lid hpool hinv
    · rw [if_neg h1]
      exact ih dc lid hpool hinv

theorem init_pool_nodup_roles (spec : DeckSpec) (pool : List AnalyzedCard)
    (h : ∀ c ∈ pool, c.roles.Nodup) :
    ∀ k c, dlookup (DeckConstruction.init spec pool).available_pool k =
      some c → c.roles.Nodup := by
  intro k c hlk
  have hfold : ∀ (l : List (String × AnalyzedCard))
      (acc : List (String × AnalyzedCard)),
      dlookup (l.foldl (fun d p => dinsert d p.1 p.2) acc) k = some c →
      (k, c) ∈ l ∨ dlookup acc k = some c := by
    intro l
    induction l with
    | nil => intro acc hh; right; exact hh
    | cons p rest ih =>
      intro acc hh
      rcases ih (dinsert acc p.1 p.2) hh with h' | h'
      · left; exact List.mem_cons_of_mem _ h'
      · rw [dlookup_dinsert] at h'
        by_cases hk : p.1 = k
        · left
          rw [if_pos hk] at h'
          have : p = (k, c) := by
            obtain ⟨p1, p2⟩ := p
            simp only at hk
            simp only [Option.some.injEq] at h'
            simp [hk, h']
          rw [← this]
          simp
        · right
          rw [if_neg hk] at h'
          exact h'
  have hlk' : dlookup ((pool.map fun c => (c.name, c)).foldl
      (fun d p => dinsert d p.1 p.2) []) k = some c := hlk
  have := hfold (pool.map fun c => (c.name, c)) [] hlk'
  rcases this with h' | h'
  · rcases List.mem_map.1 h' with ⟨card, hcard, heq⟩
    have : card = c := congrArg Prod.snd heq
    subst this
    exact h card hcard
  · simp [dlookup] at h'

/-- C4 (amended): the role-count bookkeeping invariant — `roleCounts[r]`
equals the sum over main-deck entries of the entry quantity when the
entry's card carries role `r` — holds after any sequence of `addCard`
calls, and in `build_deck` it holds through the non-land selection loop
and the non-basic land phase.  (After the final basic-land merge it can
fail, since the merge writes to the main deck without touching the role
counts — see the counterexample.) -/
theorem C4_role_counts_amended :
    (∀ (dc : DeckConstruction) (names : List String),
      (∀ k c, dlookup dc.available_pool k = some c → c.roles.Nodup) →
      (∀ r, dget dc.role_counts r 0 = roleSum dc r) →
      ∀ r, dget (applyAdds dc names).role_counts r 0 =
        roleSum (applyAdds dc names) r) ∧
    (∀ (spec : DeckSpec) (pool : List AnalyzedCard),
      (∀ c ∈ pool, c.roles.Nodup) →
      ∀ r, dget (landPhase1 spec pool
          (nonlandLoop (nonLandTarget spec) (nonLandTarget spec).toNat
            (DeckConstruction.init spec pool)) []).1.role_counts r 0 =
        roleSum (landPhase1 spec pool
          (nonlandLoop (nonLandTarget spec) (nonLandTarget spec).toNat
            (DeckConstruction.init spec pool)) []).1 r) := by
  constructor
  · intro dc names hpool hinv
    exact applyAdds_RoleInv names dc hpool hinv
  · intro spec pool hroles r
    have hpool := init_pool_nodup_roles spec pool hroles
    have hinit : ∀ r, dget (DeckConstruction.init spec pool).role_counts r 0 =
        roleSum (DeckConstruction.init spec pool) r := by
      intro r
      simp [DeckConstruction.init, dget, dlookup, roleSum]
    have hloop := nonlandLoop_RoleInv (nonLandTarget spec)
      (nonLandTarget spec).toNat (DeckConstruction.init spec pool) hpool hinit
    exact landPhase1_RoleInv spec pool _ [] hloop.2 hloop.1 r

/-- C4 counterexample: after the basic-land merge of a commander build
whose pool holds an actual basic Plains (role `"land"`), the `"land"`
role count is 0 while the main deck holds 99 copies of a card carrying
the `"land"` role — the invariant fails after the land phases. -/
theorem C4_counterexample :
    dget dcC4.role_counts "land" 0 = 0 ∧ roleSum dcC4 "land" = 99 := by
  constructor <;> decide

theorem C4_witness :
    dget (applyAdds dcW ["Bear"]).role_counts "threat" 0 =
      roleSum (applyAdds dcW ["Bear"]) "threat" := by
  refine C4_role_counts_amended.1 dcW ["Bear"] ?_ (fun r => rfl) "threat"
  intro k c hlk
  by_cases hk : "Bear" = k
  · have : dlookup dcW.available_pool k = some bearW := by
      rw [← hk]
      decide
    rw [this] at hlk
    have : c = bearW := by
      simpa using hlk.symm
    rw [this]
    decide
  · have : dlookup dcW.available_pool k = none := by
      show dlookup [("Bear", bearW)] k = none
      simp [dlookup, hk]
    rw [this] at hlk
    simp at hlk

/-! ### C5 / C10: the basic-land synthesizer -/

theorem pyRound_nonneg (q : ℚ) (h : 0 ≤ q) : 0 ≤ pyRound q := by
  have hf : 0 ≤ ⌊q⌋ := Int.floor_nonneg.2 h
  unfold pyRound
  dsimp only
  split_ifs <;> omega

theorem dsum_nonneg {l : List (String × ℤ)} (h : ∀ p ∈ l, 0 ≤ p.2) :
    0 ≤ dsum l := by
  induction l with
  | nil => simp [dsum]
  | cons p rest ih =>
    have h1 := h p (by simp)
    have h2 := ih fun q hq => h q (List.mem_cons_of_mem _ hq)
    simp only [dsum, List.map_cons, List.sum_cons] at *
    omega

theorem dsum_pos_exists_pos {l : List (String × ℤ)}
    (hnn : ∀ p ∈ l, 0 ≤ p.2) (hpos : 0 < dsum l) :
    ∃ p ∈ l, 0 < p.2 := by
  induction l with
  | nil => simp [dsum] at hpos
  | cons p rest ih =>
    by_cases hp : 0 < p.2
    · exact ⟨p, by simp, hp⟩
    · have h1 := hnn p (by simp)
      have hrest : 0 < dsum rest := by
        simp only [dsum, List.map_cons, List.sum_cons] at hpos
        simp only [dsum]
        omega
      obtain ⟨q, hq, hq2⟩ := ih (fun q hq => hnn q (List.mem_cons_of_mem _ hq))
        hrest
      exact ⟨q, List.mem_cons_of_mem _ hq, hq2⟩

theorem landMap_values {c n : String} (h : landMap c = some n) :
    n ∈ ["Plains", "Island", "Swamp", "Mountain", "Forest"] := by
  unfold landMap at h
  split_ifs at h <;> simp_all

theorem landMap_fibers {c n : String} (h : landMap c = some n) :
    (c = "W" ∧ n = "Plains") ∨ (c = "U" ∧ n = "Island") ∨
    (c = "B" ∧ n = "Swamp") ∨ (c = "R" ∧ n = "Mountain") ∨
    (c = "G" ∧ n = "Forest") := by
  unfold landMap at h
  split_ifs at h with h1 h2 h3 h4 h5
  · exact Or.inl ⟨h1, (Option.some_inj.1 h).symm⟩
  · exact Or.inr (Or.inl ⟨h2, (Option.some_inj.1 h).symm⟩)
  · exact Or.inr (Or.inr (Or.inl ⟨h3, (Option.some_inj.1 h).symm⟩))
  · exact Or.inr (Or.inr (Or.inr (Or.inl ⟨h4, (Option.some_inj.1 h).symm⟩)))
  · exact Or.inr (Or.inr (Or.inr (Or.inr ⟨h5, (Option.some_inj.1 h).symm⟩)))

theorem landMap_inj {a b n : String} (ha : landMap a = some n)
    (hb : landMap b = some n) : a = b := by
  rcases landMap_fibers ha with ⟨h1, h2⟩ | ⟨h1, h2⟩ | ⟨h1, h2⟩ | ⟨h1, h2⟩ |
    ⟨h1, h2⟩ <;>
  rcases landMap_fibers hb with ⟨h3, h4⟩ | ⟨h3, h4⟩ | ⟨h3, h4⟩ | ⟨h3, h4⟩ |
    ⟨h3, h4⟩ <;>
  simp_all

theorem extractPips_mem (l : List Char) :
    ∀ c ∈ extractPips l, c ∈ "WUBRG".toList := by
  induction l using extractPips.induct with
  | case1 d rest hd ih =>
    intro c hc
    rw [extractPips, if_pos hd] at hc
    rcases List.mem_cons.1 hc with h | h
    · subst h
      have hd' : d ∈ "WUBRGwubrg".toList := by simpa using hd
      fin_cases hd' <;> decide
    · exact ih c h
  | case2 d rest hd ih =>
    intro c hc
    rw [extractPips, if_neg hd] at hc
    exact ih c hc
  | case3 x rest hx ih =>
    intro c hc
    rw [extractPips] at hc
    · exact ih c hc
    · exact hx
  | case4 =>
    intro c hc
    simp [extractPips] at hc

theorem pipSyms_PipOk (qty : ℤ) (hq : 0 ≤ qty) (syms : List Char)
    (hsyms : ∀ d ∈ syms, d ∈ "WUBRG".toList) :
    ∀ pc, PipOk pc → PipOk (pipSyms qty syms pc) := by
  induction syms with
  | nil => intro pc h; exact h
  | cons d rest ih =>
    intro pc ⟨h1, h2, h3⟩
    refine ih (fun e he => hsyms e (List.mem_cons_of_mem _ he)) _ ⟨?_, ?_, ?_⟩
    · intro p hp
      rcases mem_dinsert hp with h | h
      · have := dget_nonneg h1 (String.mk [d])
        simp [h]
        omega
      · exact h1 p h
    · exact dkeys_nodup_dinsert h2
    · intro p hp
      rcases mem_dinsert hp with h | h
      · exact ⟨d, hsyms d (by simp), by simp [h]⟩
      · exact h3 p h

theorem pipCountsGo_PipOk (card_map : List (String × AnalyzedCard)) :
    ∀ (entries : List (String × ℤ)) (pc : List (String × ℤ)),
    (∀ p ∈ entries, 0 ≤ p.2) → PipOk pc →
    PipOk (pipCountsGo card_map entries pc) := by
  intro entries
  induction entries with
  | nil => intro pc _ h; exact h
  | cons entry rest ih =>
    intro pc hnn hok
    have hq := hnn entry (by simp)
    have hrest := fun p hp => hnn p (List.mem_cons_of_mem _ hp)
    simp only [pipCountsGo]
    generalize dlookup card_map entry.1 = olk
    cases olk with
    | none =>
      dsimp only
      exact ih _ hrest hok
    | some card =>
      dsimp only
      generalize card.mana_cost = omc
      cases omc with
      | none =>
        dsimp only
        exact ih _ hrest hok
      | some mana_cost =>
        dsimp only
        exact ih _ hrest
          (pipSyms_PipOk entry.2 hq _ (extractPips_mem mana_cost.toList) pc hok)

theorem pipCounts_PipOk (deck : DeckConstruction) (pool : List AnalyzedCard)
    (hmd : ∀ p ∈ deck.main_deck, 0 ≤ p.2) : PipOk (pipCounts deck pool) :=
  pipCountsGo_PipOk _ deck.main_deck [] hmd ⟨by simp, by simp, by simp⟩

theorem pip_landMap_isSome {pc : List (String × ℤ)} (h : PipOk pc) :
    ∀ p ∈ pc, (landMap p.1).isSome := by
  intro p hp
  obtain ⟨d, hd, heq⟩ := h.2.2 p hp
  rw [heq]
  fin_cases hd <;> decide

theorem fold_pick_mem {α : Type} (f : α → α → α)
    (hf : ∀ a b, f a b = a ∨ f a b = b) (p : α) (rest : List α) :
    rest.foldl f p ∈ p :: rest := by
  induction rest generalizing p with
  | nil => simp
  | cons q rest ih =>
    simp only [List.foldl_cons]
    rcases hf p q with h | h <;> rw [h]
    · rcases List.mem_cons.1 (ih p) with h' | h'
      · simp [h']
      · exact List.mem_cons_of_mem _ (List.mem_cons_of_mem _ h')
    · rcases List.mem_cons.1 (ih q) with h' | h'
      · simp [h']
      · exact List.mem_cons_of_mem _ (List.mem_cons_of_mem _ h')

theorem pyMaxKey_spec (l : List (String × ℤ)) (hne : l ≠ []) :
    ∃ k, pyMaxKey l = some k ∧ k ∈ l.map Prod.fst := by
  cases l with
  | nil => exact absurd rfl hne
  | cons p rest =>
    refine ⟨(rest.foldl
        (fun (best q : String × ℤ) => if q.2 > best.2 then q else best) p).1,
      rfl, ?_⟩
    have hmem := fold_pick_mem
      (fun (best q : String × ℤ) => if q.2 > best.2 then q else best)
      (fun a b => by by_cases h : b.2 > a.2 <;> simp [h]) p rest
    exact List.mem_map.2 ⟨_, hmem, rfl⟩

theorem pyMinKeyAlloc_spec (pip lb : List (String × ℤ)) (k : String)
    (h : pyMinKeyAlloc pip lb = some k) :
    k ∈ pip.map Prod.fst ∧ dget lb ((landMap k).getD "") 0 > 0 := by
  unfold pyMinKeyAlloc at h
  cases hfil : pip.filter fun p => dget lb ((landMap p.1).getD "") 0 > 0 with
  | nil => rw [hfil] at h; simp at h
  | cons q qrest =>
    rw [hfil] at h
    simp only [Option.some_inj] at h
    have hmem := fold_pick_mem (fun best q => if q.2 < best.2 then q else best)
      (fun a b => by by_cases hh : b.2 < a.2 <;> simp [hh]) q qrest
    rw [← hfil] at hmem
    have hmem2 := List.mem_filter.1 hmem
    constructor
    · rw [← h]
      exact List.mem_map.2 ⟨_, hmem2.1, rfl⟩
    · rw [← h]
      simpa using hmem2.2

theorem pyMinKeyAlloc_ne_none (pip lb : List (String × ℤ))
    (hnodup : (lb.map Prod.fst).Nodup)
    (hnn : ∀ p ∈ lb, 0 ≤ p.2) (hpos : 0 < dsum lb)
    (hsub : ∀ p ∈ lb, ∃ c ∈ pip.map Prod.fst, landMap c = some p.1) :
    ∃ k, pyMinKeyAlloc pip lb = some k := by
  obtain ⟨p, hp, hppos⟩ := dsum_pos_exists_pos hnn hpos
  obtain ⟨c, hc, hcmap⟩ := hsub p hp
  obtain ⟨q, hq, hqfst⟩ := List.mem_map.1 hc
  have hfilter : q ∈ pip.filter fun r => dget lb ((landMap r.1).getD "") 0 > 0 := by
    refine List.mem_filter.2 ⟨hq, ?_⟩
    rw [hqfst, hcmap]
    have : dlookup lb p.1 = some p.2 := by
      obtain ⟨p1, p2⟩ := p
      exact dlookup_of_mem_nodup hnodup hp
    simp only [Option.getD_some, dget, this]
    simpa using hppos
  unfold pyMinKeyAlloc
  cases hfil : pip.filter fun r => dget lb ((landMap r.1).getD "") 0 > 0 with
  | nil => rw [hfil] at hfilter; simp at hfilter
  | cons a arest => exact ⟨_, rfl⟩

theorem mem_keys_dinsert {α : Type} {l : List (String × α)} {k : String}
    {v : α} {k' : String} (h : k' ∈ (dinsert l k v).map Prod.fst) :
    k' = k ∨ k' ∈ l.map Prod.fst := by
  rcases List.mem_map.1 h with ⟨p, hp, hfst⟩
  rcases mem_dinsert hp with h' | h'
  · left
    rw [h'] at hfst
    exact hfst.symm
  · right
    exact List.mem_map.2 ⟨p, h', hfst⟩

theorem reconcile_spec (pip : List (String × ℤ)) (hne : pip ≠ [])
    (hkeys : ∀ p ∈ pip, (landMap p.1).isSome) :
    ∀ (fuel : ℕ) (diff : ℤ) (lb : List (String × ℤ)),
    diff.natAbs ≤ fuel →
    (∀ p ∈ lb, 0 ≤ p.2) →
    ((lb.map Prod.fst).Nodup) →
    (∀ p ∈ lb, ∃ c ∈ pip.map Prod.fst, landMap c = some p.1) →
    0 < dsum lb + diff →
    dsum (reconcile pip fuel diff lb) = dsum lb + diff ∧
    (∀ p ∈ reconcile pip fuel diff lb, 0 ≤ p.2) ∧
    ((reconcile pip fuel diff lb).map Prod.fst).Nodup ∧
    (∀ p ∈ reconcile pip fuel diff lb,
      ∃ c ∈ pip.map Prod.fst, landMap c = some p.1) := by
  intro fuel
  induction fuel with
  | zero =>
    intro diff lb hfuel hnn hnd hsub hpos
    have h0 : diff = 0 := by omega
    subst h0
    simp only [reconcile]
    exact ⟨by omega, hnn, hnd, hsub⟩
  | succ fuel ih =>
    intro diff lb hfuel hnn hnd hsub hpos
    simp only [reconcile]
    by_cases h0 : diff = 0
    · rw [if_pos h0]
      exact ⟨by omega, hnn, hnd, hsub⟩
    · rw [if_neg h0]
      by_cases hgt : diff > 0
      · rw [if_pos hgt]
        obtain ⟨k, hk, hkmem⟩ := pyMaxKey_spec pip hne
        rw [hk]
        obtain ⟨q, hq, hqfst⟩ := List.mem_map.1 hkmem
        have hsome := hkeys q hq
        rw [hqfst] at hsome
        obtain ⟨name, hname⟩ := Option.isSome_iff_exists.1 hsome
        dsimp only
        rw [hname]
        dsimp only
        have hget := dget_nonneg hnn name
        have hd := dsum_dinsert lb name (dget lb name 0 + 1)
        have hnn' : ∀ p ∈ dinsert lb name (dget lb name 0 + 1), 0 ≤ p.2 := by
          intro p hp
          rcases mem_dinsert hp with h' | h'
          · simp [h']
            omega
          · exact hnn p h'
        have hsub' : ∀ p ∈ dinsert lb name (dget lb name 0 + 1),
            ∃ c ∈ pip.map Prod.fst, landMap c = some p.1 := by
          intro p hp
          rcases mem_dinsert hp with h' | h'
          · exact ⟨k, hkmem, by simp [h', hname]⟩
          · exact hsub p h'
        have hres := ih (diff - 1) (dinsert lb name (dget lb name 0 + 1))
          (by omega) hnn' (dkeys_nodup_dinsert hnd) hsub' (by omega)
        refine ⟨by omega, hres.2.1, hres.2.2.1, hres.2.2.2⟩
      · rw [if_neg hgt]
        have hdlt : diff < 0 := by omega
        have hsumpos : 0 < dsum lb := by omega
        have hany : (lb.any fun p => p.2 != 0) = true := by
          obtain ⟨p, hp, hppos⟩ := dsum_pos_exists_pos hnn hsumpos
          refine List.any_eq_true.2 ⟨p, hp, ?_⟩
          simpa using (by omega : p.2 ≠ 0)
        rw [hany, if_pos rfl]
        obtain ⟨k, hmin⟩ := pyMinKeyAlloc_ne_none pip lb hnd hnn hsumpos hsub
        rw [hmin]
        obtain ⟨hkpip, hkpos⟩ := pyMinKeyAlloc_spec pip lb k hmin
        obtain ⟨q, hq, hqfst⟩ := List.mem_map.1 hkpip
        have hsome := hkeys q hq
        rw [hqfst] at hsome
        obtain ⟨name, hname⟩ := Option.isSome_iff_exists.1 hsome
        dsimp only
        rw [hname]
        dsimp only
        rw [hname] at hkpos
        simp only [Option.getD_some] at hkpos
        have hd := dsum_dinsert lb name (dget lb name 0 - 1)
        have hnn' : ∀ p ∈ dinsert lb name (dget lb name 0 - 1), 0 ≤ p.2 := by
          intro p hp
          rcases mem_dinsert hp with h' | h'
          · simp [h']
            omega
          · exact hnn p h'
        have hsub' : ∀ p ∈ dinsert lb name (dget lb name 0 - 1),
            ∃ c ∈ pip.map Prod.fst, landMap c = some p.1 := by
          intro p hp
          rcases mem_dinsert hp with h' | h'
          · exact ⟨k, hkpip, by simp [h', hname]⟩
          · exact hsub p h'
        have hres := ih (diff + 1) (dinsert lb name (dget lb name 0 - 1))
          (by omega) hnn' (dkeys_nodup_dinsert hnd) hsub' (by omega)
        refine ⟨by omega, hres.2.1, hres.2.2.1, hres.2.2.2⟩

theorem initialAllocGo_spec (T L : ℤ) (hT : 0 < T) (hL : 0 ≤ L)
    (P : List (String × ℤ)) :
    ∀ (pip : List (String × ℤ)) (acc : List (String × ℤ) × ℤ),
    (∀ p ∈ pip, 0 ≤ p.2) →
    ((pip.map Prod.fst).Nodup) →
    (∀ k ∈ pip.map Prod.fst, k ∈ P.map Prod.fst) →
    dsum acc.1 = acc.2 →
    (∀ p ∈ acc.1, 0 ≤ p.2) →
    ((acc.1.map Prod.fst).Nodup) →
    (∀ name ∈ acc.1.map Prod.fst, ∃ c, landMap c = some name ∧
      c ∈ P.map Prod.fst ∧ c ∉ pip.map Prod.fst) →
    dsum (initialAllocGo T L pip acc).1 = (initialAllocGo T L pip acc).2 ∧
    (∀ p ∈ (initialAllocGo T L pip acc).1, 0 ≤ p.2) ∧
    (((initialAllocGo T L pip acc).1.map Prod.fst).Nodup) ∧
    (∀ p ∈ (initialAllocGo T L pip acc).1,
      ∃ c ∈ P.map Prod.fst, landMap c = some p.1) := by
  intro pip
  induction pip with
  | nil =>
    intro acc _ _ _ h1 h2 h3 h4
    refine ⟨h1, h2, h3, ?_⟩
    intro p hp
    obtain ⟨c, hc1, hc2, _⟩ := h4 p.1 (List.mem_map.2 ⟨p, hp, rfl⟩)
    exact ⟨c, hc2, hc1⟩
  | cons p0 rest ih =>
    intro acc hnnpip hndpip hsubP hsum hnn hnd hfresh
    obtain ⟨c0, v0⟩ := p0
    have hnnrest : ∀ p ∈ rest, (0:ℤ) ≤ p.2 :=
      fun p hp => hnnpip p (List.mem_cons_of_mem _ hp)
    have hndrest : (rest.map Prod.fst).Nodup := by
      simp only [List.map_cons, List.nodup_cons] at hndpip
      exact hndpip.2
    have hc0fresh : c0 ∉ rest.map Prod.fst := by
      simp only [List.map_cons, List.nodup_cons] at hndpip
      exact hndpip.1
    have hsubrest : ∀ k ∈ rest.map Prod.fst, k ∈ P.map Prod.fst :=
      fun k hk => hsubP k (by simp [hk])
    simp only [initialAllocGo]
    generalize hmap : landMap c0 = om
    cases om with
    | none =>
      try dsimp only
      refine ih acc hnnrest hndrest hsubrest hsum hnn hnd ?_
      intro name hname
      obtain ⟨c, hc1, hc2, hc3⟩ := hfresh name hname
      exact ⟨c, hc1, hc2, fun hmem => hc3 (by simp [hmem])⟩
    | some name0 =>
      try dsimp only
      have hv0 : (0:ℤ) ≤ v0 := hnnpip (c0, v0) (by simp)
      have hnum : 0 ≤ pyRound ((L : ℚ) * ((v0 : ℚ) / (T : ℚ))) := by
        apply pyRound_nonneg
        have hv0' : (0 : ℚ) ≤ (v0 : ℚ) := by exact_mod_cast hv0
        have hT' : (0 : ℚ) < (T : ℚ) := by exact_mod_cast hT
        have hL' : (0 : ℚ) ≤ (L : ℚ) := by exact_mod_cast hL
        exact mul_nonneg hL' (div_nonneg hv0' (le_of_lt hT'))
      have hfreshname : name0 ∉ acc.1.map Prod.fst := by
        intro hmem
        obtain ⟨c, hc1, hc2, hc3⟩ := hfresh name0 hmem
        have hcc : c = c0 := landMap_inj hc1 hmap
        subst hcc
        exact hc3 (by simp)
      have hget0 : dget acc.1 name0 0 = 0 := by
        unfold dget
        rw [dlookup_eq_none_of_not_mem hfreshname]
        rfl
      have hsum' : dsum (dinsert acc.1 name0
          (pyRound ((L : ℚ) * ((v0 : ℚ) / (T : ℚ))))) =
          acc.2 + pyRound ((L : ℚ) * ((v0 : ℚ) / (T : ℚ))) := by
        rw [dsum_dinsert, hget0, hsum]
        ring
      have hnn' : ∀ p ∈ dinsert acc.1 name0
          (pyRound ((L : ℚ) * ((v0 : ℚ) / (T : ℚ)))), (0:ℤ) ≤ p.2 := by
        intro p hp
        rcases mem_dinsert hp with h' | h'
        · rw [h']
          exact hnum
        · exact hnn p h'
      have hfresh' : ∀ name ∈ (dinsert acc.1 name0
          (pyRound ((L : ℚ) * ((v0 : ℚ) / (T : ℚ))))).map Prod.fst,
          ∃ c, landMap c = some name ∧ c ∈ P.map Prod.fst ∧
            c ∉ rest.map Prod.fst := by
        intro name hname
        rcases mem_keys_dinsert hname with h' | h'
        · subst h'
          exact ⟨c0, hmap, hsubP c0 (by simp), hc0fresh⟩
        · obtain ⟨c, hc1, hc2, hc3⟩ := hfresh name h'
          exact ⟨c, hc1, hc2, fun hmem => hc3 (by simp [hmem])⟩
      exact ih _ hnnrest hndrest hsubrest hsum' hnn'
        (dkeys_nodup_dinsert hnd) hfresh'

theorem generate_spec (dc : DeckConstruction) (pool : List AnalyzedCard)
    (L : ℤ) (hL : 0 < L) (hmd : ∀ p ∈ dc.main_deck, 0 ≤ p.2) :
    (∀ p ∈ generate_basic_land_base dc pool L, 0 ≤ p.2) ∧
    (∀ p ∈ generate_basic_land_base dc pool L,
      p.1 ∈ ["Plains", "Island", "Swamp", "Mountain", "Forest", "Wastes"]) ∧
    (dsum (generate_basic_land_base dc pool L) = L ∨
      generate_basic_land_base dc pool L = []) ∧
    ((∀ c ∈ dc.spec.color_identity, (landMap c).isSome) →
      dsum (generate_basic_land_base dc pool L) = L) := by
  obtain ⟨hpnn, hpnd, hpchar⟩ := pipCounts_PipOk dc pool hmd
  unfold generate_basic_land_base
  by_cases htot : dsum (pipCounts dc pool) = 0
  · rw [if_pos htot]
    cases hhead : dc.spec.color_identity.head? with
    | none =>
      try dsimp only
      refine ⟨?_, ?_, Or.inl ?_, fun _ => ?_⟩
      · intro p hp
        simp only [List.mem_singleton] at hp
        rw [hp]
        omega
      · intro p hp
        simp only [List.mem_singleton] at hp
        simp [hp]
      · simp [dsum]
      · simp [dsum]
    | some primary =>
      try dsimp only
      cases hmap : landMap primary with
      | none =>
        try dsimp only
        refine ⟨by simp, by simp, Or.inr rfl, fun hci => ?_⟩
        have hmem : primary ∈ dc.spec.color_identity := by
          cases hl : dc.spec.color_identity with
          | nil => rw [hl] at hhead; simp at hhead
          | cons a l =>
            rw [hl] at hhead
            simp only [List.head?_cons, Option.some_inj] at hhead
            simp [hhead]
        have hs := hci primary hmem
        rw [hmap] at hs
        simp at hs
      | some name =>
        try dsimp only
        refine ⟨?_, ?_, Or.inl ?_, fun _ => ?_⟩
        · intro p hp
          simp only [List.mem_singleton] at hp
          rw [hp]
          omega
        · intro p hp
          simp only [List.mem_singleton] at hp
          rw [hp]
          have := landMap_values hmap
          simp only [List.mem_cons, List.not_mem_nil, or_false] at this ⊢
          tauto
        · simp [dsum]
        · simp [dsum]
  · rw [if_neg htot]
    have hTpos : 0 < dsum (pipCounts dc pool) :=
      lt_of_le_of_ne (dsum_nonneg hpnn) (Ne.symm htot)
    have hpipne : pipCounts dc pool ≠ [] := by
      intro h
      rw [h] at htot
      exact htot rfl
    have hinit := initialAllocGo_spec (dsum (pipCounts dc pool)) L hTpos
      (le_of_lt hL) (pipCounts dc pool) (pipCounts dc pool) ([], 0) hpnn hpnd
      (fun k hk => hk) (by simp [dsum]) (by simp) (by simp) (by simp)
    obtain ⟨hasum, hann, hand, hakeys⟩ := hinit
    have hasum' : dsum (initialAlloc (pipCounts dc pool)
        (dsum (pipCounts dc pool)) L).1 =
        (initialAlloc (pipCounts dc pool) (dsum (pipCounts dc pool)) L).2 := hasum
    have hann' : ∀ p ∈ (initialAlloc (pipCounts dc pool)
        (dsum (pipCounts dc pool)) L).1, (0:ℤ) ≤ p.2 := hann
    have hand' : ((initialAlloc (pipCounts dc pool)
        (dsum (pipCounts dc pool)) L).1.map Prod.fst).Nodup := hand
    have hakeys' : ∀ p ∈ (initialAlloc (pipCounts dc pool)
        (dsum (pipCounts dc pool)) L).1,
        ∃ c ∈ (pipCounts dc pool).map Prod.fst, landMap c = some p.1 := hakeys
    have hrec := reconcile_spec (pipCounts dc pool) hpipne
      (pip_landMap_isSome ⟨hpnn, hpnd, hpchar⟩)
      (L - (initialAlloc (pipCounts dc pool) (dsum (pipCounts dc pool)) L).2).natAbs
      (L - (initialAlloc (pipCounts dc pool) (dsum (pipCounts dc pool)) L).2)
      (initialAlloc (pipCounts dc pool) (dsum (pipCounts dc pool)) L).1
      (le_refl _) hann' hand' hakeys' (by rw [hasum']; omega)
    obtain ⟨hrsum, hrnn, hrnd, hrkeys⟩ := hrec
    have hfinal : dsum (reconcile (pipCounts dc pool)
        (L - (initialAlloc (pipCounts dc pool) (dsum (pipCounts dc pool)) L).2).natAbs
        (L - (initialAlloc (pipCounts dc pool) (dsum (pipCounts dc pool)) L).2)
        (initialAlloc (pipCounts dc pool) (dsum (pipCounts dc pool)) L).1) = L := by
      rw [hrsum, hasum']
      ring
    refine ⟨hrnn, ?_, Or.inl hfinal, fun _ => hfinal⟩
    intro p hp
    obtain ⟨c, _, hcmap⟩ := hrkeys p hp
    have := landMap_values hcmap
    simp only [List.mem_cons, List.not_mem_nil, or_false] at this ⊢
    tauto

/-- C5: for every deck state with non-negative main-deck quantities, pool
and `lands_to_add > 0` (with the spec's colors drawn from W/U/B/R/G, the
DeckSpec invariant, so the zero-pip fallback is well defined), the counts
returned by `_generate_basic_land_base` sum to exactly `lands_to_add`,
and the reconciliation loop terminates — it is total by construction,
shifting the difference by one per step — without ever driving an
allocation negative. -/
theorem C5_land_base_total (dc : DeckConstruction) (pool : List AnalyzedCard)
    (lands_to_add : ℤ) (hL : 0 < lands_to_add)
    (hmd : ∀ p ∈ dc.main_deck, 0 ≤ p.2)
    (hci : ∀ c ∈ dc.spec.color_identity, (landMap c).isSome) :
    dsum (generate_basic_land_base dc pool lands_to_add) = lands_to_add ∧
    ∀ p ∈ generate_basic_land_base dc pool lands_to_add, 0 ≤ p.2 := by
  obtain ⟨h1, _, _, h4⟩ := generate_spec dc pool lands_to_add hL hmd
  exact ⟨h4 hci, h1⟩

theorem C5_witness :
    dsum (generate_basic_land_base dcMid10 pool10 1) = 1 :=
  (C5_land_base_total dcMid10 pool10 1 (by decide) (by decide) (by decide)).1

theorem pip10 : pipCounts dcMid10 pool10 = [("W", 3), ("B", 1)] := by decide

theorem gen10 :
    generate_basic_land_base dcMid10 pool10 1 = [("Plains", 1), ("Swamp", 0)] := by
  unfold generate_basic_land_base
  rw [pip10]
  norm_num [dsum, initialAlloc, initialAllocGo, landMap, pyRound, dinsert,
    dget, dlookup, reconcile]
  decide

theorem mid10 :
    nonlandLoop (nonLandTarget spec10) (nonLandTarget spec10).toNat
      (DeckConstruction.init spec10 pool10) = dcMid10 := by decide

theorem phase10 : landPhase1 spec10 pool10 dcMid10 [] = (dcMid10, []) := by decide

theorem state10 :
    build_deck_state spec10 pool10 =
      { dcMid10 with main_deck := [("A", 1), ("B", 1), ("Plains", 1), ("Swamp", 0)] } := by
  simp only [build_deck_state]
  rw [mid10, phase10]
  have hrem : spec10.target_lands - (([] : List (String × ℤ)).length : ℤ) = 1 := by
    decide
  dsimp only
  rw [hrem, if_pos (by decide : (0:ℤ) < 1), gen10]
  decide

theorem build10_main :
    (build_deck spec10 pool10).main_deck = (build_deck_state spec10 pool10).main_deck := by
  unfold build_deck
  rw [if_neg (by decide : ¬ pool10.isEmpty = true)]

/-- C10: every count returned by the basic-land synthesizer is
non-negative (for positive `lands_to_add` and a non-negative main deck),
but a count of exactly 0 does occur — a color whose pip share rounds to
zero keeps its 0 entry — and `build_deck` merges such an entry into the
final main deck unchanged: a concrete build ends with `"Swamp" ↦ 0`. -/
theorem C10_zero_allocations :
    (∀ (dc : DeckConstruction) (pool : List AnalyzedCard) (L : ℤ), 0 < L →
      (∀ p ∈ dc.main_deck, 0 ≤ p.2) →
      ∀ p ∈ generate_basic_land_base dc pool L, 0 ≤ p.2) ∧
    dlookup (generate_basic_land_base dcMid10 pool10 1) "Swamp" = some 0 ∧
    dlookup (build_deck spec10 pool10).main_deck "Swamp" = some 0 := by
  refine ⟨?_, ?_, ?_⟩
  · intro dc pool L hL hmd
    exact (generate_spec dc pool L hL hmd).1
  · rw [gen10]
    decide
  · rw [build10_main, state10]
    decide

theorem C10_witness : (0 : ℤ) ≤ (("Plains", (1 : ℤ)) : String × ℤ).2 :=
  C10_zero_allocations.1 dcMid10 pool10 1 (by decide) (by decide)
    ("Plains", 1) (by simp [gen10])

/-! ### C1 / C2: deck-size and copy-limit bounds -/

theorem copyLimit_pos (spec : DeckSpec) : 0 < copyLimit spec := by
  unfold copyLimit
  split_ifs <;> norm_num

theorem dsum_eq_length {l : List (String × ℤ)} (h : ∀ p ∈ l, p.2 = 1) :
    dsum l = l.length := by
  induction l with
  | nil => simp [dsum]
  | cons p rest ih =>
    have h1 := h p (by simp)
    have h2 := ih fun q hq => h q (List.mem_cons_of_mem _ hq)
    simp only [dsum, List.map_cons, List.sum_cons, List.length_cons] at *
    omega

theorem half_lt_iff (a b : ℤ) : ((a : ℚ) < (b : ℚ) * (1/2)) ↔ 2 * a < b := by
  rw [show ((b : ℚ) * (1/2)) = (b : ℚ) / 2 by ring,
    lt_div_iff (by norm_num : (0 : ℚ) < 2)]
  constructor
  · intro h
    have h2 : ((2 * a : ℤ) : ℚ) < (b : ℚ) := by
      push_cast
      linarith
    exact_mod_cast h2
  · intro h
    have h2 : ((2 * a : ℤ) : ℚ) < (b : ℚ) := by exact_mod_cast h
    push_cast at h2
    linarith

theorem add_card_succ_iff (dc : DeckConstruction) (n : String) :
    (dc.add_card n).1 = true ↔
      ∃ c, dlookup dc.available_pool n = some c ∧
        dget dc.main_deck n 0 < copyLimit dc.spec ∧
        dget dc.main_deck n 0 < c.quantity := by
  unfold DeckConstruction.add_card
  cases hlk : dlookup dc.available_pool n with
  | none => simp
  | some c =>
    by_cases hcond : dget dc.main_deck n 0 ≥ copyLimit dc.spec ∨
        dget dc.main_deck n 0 ≥ c.quantity
    · simp only [hcond, if_true]
      constructor
      · intro h
        simp at h
      · rintro ⟨c', hc', h1, h2⟩
        rw [Option.some_inj] at hc'
        subst hc'
        omega
    · simp only [hcond, if_false]
      constructor
      · intro _
        exact ⟨c, rfl, by omega, by omega⟩
      · intro _
        trivial

theorem add_card_fail_state (dc : DeckConstruction) (n : String)
    (h : (dc.add_card n).1 = false) : (dc.add_card n).2 = dc := by
  unfold DeckConstruction.add_card at *
  cases hlk : dlookup dc.available_pool n with
  | none => rfl
  | some c =>
    rw [hlk] at h
    by_cases hcond : dget dc.main_deck n 0 ≥ copyLimit dc.spec ∨
        dget dc.main_deck n 0 ≥ c.quantity
    · simp [hcond]
    · simp [hcond] at h

theorem add_card_main_isSome (dc : DeckConstruction) (n k : String)
    (h : (dlookup dc.main_deck k).isSome) :
    (dlookup (dc.add_card n).2.main_deck k).isSome := by
  unfold DeckConstruction.add_card
  cases hlk : dlookup dc.available_pool n with
  | none => exact h
  | some c =>
    by_cases hcond : dget dc.main_deck n 0 ≥ copyLimit dc.spec ∨
        dget dc.main_deck n 0 ≥ c.quantity
    · simp only [hcond, if_true]
      exact h
    · simp only [hcond, if_false]
      show (dlookup (dinsert dc.main_deck n _) k).isSome
      rw [dlookup_dinsert]
      by_cases hk : n = k
      · simp [hk]
      · simp only [if_neg hk]
        exact h

theorem add_card_MDInv (dc : DeckConstruction) (n : String) (h : MDInv dc) :
    MDInv (dc.add_card n).2 := by
  obtain ⟨hnn, hbd⟩ := h
  unfold DeckConstruction.add_card
  cases hlk : dlookup dc.available_pool n with
  | none => exact ⟨hnn, hbd⟩
  | some c =>
    by_cases hcond : dget dc.main_deck n 0 ≥ copyLimit dc.spec ∨
        dget dc.main_deck n 0 ≥ c.quantity
    · simp only [hcond, if_true]
      exact ⟨hnn, hbd⟩
    · simp only [hcond, if_false]
      have hq := dget_nonneg hnn n
      constructor
      · intro p hp
        rcases mem_dinsert hp with h' | h'
        · rw [h']
          simp
          omega
        · exact hnn p h'
      · intro p hp
        rcases mem_dinsert hp with h' | h'
        · rw [h']
          refine ⟨c, hlk, by omega, ?_⟩
          show dget dc.main_deck n 0 + 1 ≤ copyLimit dc.spec
          omega
        · exact hbd p h'

theorem nonlandLoop_fields (t : ℤ) (fuel : ℕ) (dc : DeckConstruction) :
    (nonlandLoop t fuel dc).available_pool = dc.available_pool ∧
    (nonlandLoop t fuel dc).spec = dc.spec ∧
    (MDInv dc → MDInv (nonlandLoop t fuel dc)) := by
  induction fuel generalizing dc with
  | zero => exact ⟨rfl, rfl, fun h => h⟩
  | succ fuel ih =>
    simp only [nonlandLoop]
    by_cases hlt : dc.total_cards < t
    · rw [if_pos hlt]
      cases hp : pickBest dc with
      | none => exact ⟨rfl, rfl, fun h => h⟩
      | some n =>
        obtain ⟨h1, h2, h3⟩ := ih (dc.add_card n).2
        refine ⟨?_, ?_, ?_⟩
        · rw [h1, (add_card_pool_spec dc n).1]
        · rw [h2, (add_card_pool_spec dc n).2.1]
        · intro h
          exact h3 (add_card_MDInv dc n h)
    · rw [if_neg hlt]
      exact ⟨rfl, rfl, fun h => h⟩

theorem nonlandLoop_total_le (t : ℤ) (fuel : ℕ) (dc : DeckConstruction) :
    (nonlandLoop t fuel dc).total_cards ≤ max dc.total_cards t := by
  induction fuel generalizing dc with
  | zero =>
    simp only [nonlandLoop]
    exact le_max_left _ _
  | succ fuel ih =>
    simp only [nonlandLoop]
    by_cases hlt : dc.total_cards < t
    · rw [if_pos hlt]
      cases hp : pickBest dc with
      | none => exact le_max_left _ _
      | some n =>
        have hrec := ih (dc.add_card n).2
        rcases add_card_total_succ dc n with h | ⟨_, h⟩
        · rw [h] at hrec
          exact hrec
        · rw [h] at hrec
          have hmax : max (dc.total_cards + 1) t = t := max_eq_right (by omega)
          rw [hmax] at hrec
          exact le_trans hrec (le_max_right _ _)
    · rw [if_neg hlt]
      exact le_max_left _ _

theorem landPhase1_fields (spec : DeckSpec) :
    ∀ (pool : List AnalyzedCard) (dc : DeckConstruction)
      (lid : List (String × ℤ)),
    (landPhase1 spec pool dc lid).1.available_pool = dc.available_pool ∧
    (landPhase1 spec pool dc lid).1.spec = dc.spec ∧
    (MDInv dc → MDInv (landPhase1 spec pool dc lid).1) := by
  intro pool
  induction pool with
  | nil => exact fun dc lid => ⟨rfl, rfl, fun h => h⟩
  | cons card rest ih =>
    intro dc lid
    simp only [landPhase1]
    by_cases h1 : card.roles.contains "land" ∧
        dlookup dc.main_deck card.name = none
    · rw [if_pos h1]
      by_cases h2 : (["plains", "island", "swamp", "mountain", "forest"].any
          fun lt => strContains (String.mk (lowerChars card.type_line)) lt) = false
      · rw [if_pos h2]
        by_cases h3 : (dsum lid : ℚ) < (spec.target_lands : ℚ) * (1/2)
        · rw [if_pos h3]
          obtain ⟨ha, hb, hc⟩ := ih (dc.add_card card.name).2
            (dinsert lid card.name 1)
          refine ⟨?_, ?_, ?_⟩
          · rw [ha, (add_card_pool_spec dc card.name).1]
          · rw [hb, (add_card_pool_spec dc card.name).2.1]
          · intro h
            exact hc (add_card_MDInv dc card.name h)
        · rw [if_neg h3]
          exact ih dc lid
      · rw [if_neg h2]
        exact ih dc lid
    · rw [if_neg h1]
      exact ih dc lid

theorem add_card_succ_main (dc : DeckConstruction) (n : String)
    (h : (dc.add_card n).1 = true) :
    dlookup (dc.add_card n).2.main_deck n =
      some (dget dc.main_deck n 0 + 1) := by
  obtain ⟨c, hlk, hlim, hqty⟩ := (add_card_succ_iff dc n).1 h
  unfold DeckConstruction.add_card
  rw [hlk]
  have hcond : ¬ (dget dc.main_deck n 0 ≥ copyLimit dc.spec ∨
      dget dc.main_deck n 0 ≥ c.quantity) := by omega
  simp only [hcond, if_false]
  show dlookup (dinsert dc.main_deck n _) n = _
  rw [dlookup_dinsert, if_pos rfl]

theorem landPhase1_bound (spec : DeckSpec) :
    ∀ (pool : List AnalyzedCard) (dc : DeckConstruction)
      (lid : List (String × ℤ)),
    (∀ p ∈ lid, p.2 = 1) →
    (∀ k ∈ lid.map Prod.fst, (dlookup dc.main_deck k).isSome ∨
      (∀ c, dlookup dc.available_pool k = some c → c.quantity ≤ 0)) →
    (landPhase1 spec pool dc lid).1.total_cards - dc.total_cards ≤
      dsum (landPhase1 spec pool dc lid).2 - dsum lid ∧
    (∀ p ∈ (landPhase1 spec pool dc lid).2, p.2 = 1) ∧
    dsum (landPhase1 spec pool dc lid).2 * 2 ≤
      max (dsum lid * 2) (spec.target_lands + 1) := by
  intro pool
  induction pool with
  | nil =>
    intro dc lid hvals hinv
    simp only [landPhase1]
    exact ⟨by omega, hvals, le_max_left _ _⟩
  | cons card rest ih =>
    intro dc lid hvals hinv
    simp only [landPhase1]
    by_cases h1 : card.roles.contains "land" ∧
        dlookup dc.main_deck card.name = none
    · rw [if_pos h1]
      by_cases h2 : (["plains", "island", "swamp", "mountain", "forest"].any
          fun lt => strContains (String.mk (lowerChars card.type_line)) lt) = false
      · rw [if_pos h2]
        by_cases h3 : (dsum lid : ℚ) < (spec.target_lands : ℚ) * (1/2)
        · rw [if_pos h3]
          have hhalf : 2 * dsum lid < spec.target_lands := (half_lt_iff _ _).1 h3
          have hvals' : ∀ p ∈ dinsert lid card.name 1, p.2 = 1 := by
            intro p hp
            rcases mem_dinsert hp with h' | h'
            · simp [h']
            · exact hvals p h'
          have hget01 : dget lid card.name 0 = 0 ∨ dget lid card.name 0 = 1 := by
            unfold dget
            cases hh : dlookup lid card.name with
            | none => left; rfl
            | some w =>
              right
              have := hvals (card.name, w) (dlookup_mem hh)
              simpa using this
          have hsumins := dsum_dinsert lid card.name 1
          have hdelta :
              (dc.add_card card.name).2.total_cards - dc.total_cards ≤
              dsum (dinsert lid card.name 1) - dsum lid := by
            rcases add_card_total_succ dc card.name with h | ⟨hret, h⟩
            · omega
            · have hg0 : dget lid card.name 0 = 0 := by
                rcases hget01 with hg | hg
                · exact hg
                · exfalso
                  have hsome : (dlookup lid card.name).isSome := by
                    unfold dget at hg
                    cases hh : dlookup lid card.name with
                    | none => rw [hh] at hg; simp at hg
                    | some w => simp
                  have hmemk : card.name ∈ lid.map Prod.fst := by
                    cases hh : dlookup lid card.name with
                    | none => rw [hh] at hsome; simp at hsome
                    | some w =>
                      exact List.mem_map.2 ⟨(card.name, w), dlookup_mem hh, rfl⟩
                  rcases hinv card.name hmemk with hs | hq
                  · rw [h1.2] at hs
                    simp at hs
                  · obtain ⟨c, hlk, _, hqty⟩ :=
                      (add_card_succ_iff dc card.name).1 hret
                    have := hq c hlk
                    have hq0 : dget dc.main_deck card.name 0 = 0 := by
                      unfold dget
                      rw [h1.2]
                      rfl
                    omega
              omega
          have hinv' : ∀ k ∈ (dinsert lid card.name 1).map Prod.fst,
              (dlookup (dc.add_card card.name).2.main_deck k).isSome ∨
              (∀ c, dlookup (dc.add_card card.name).2.available_pool k =
                some c → c.quantity ≤ 0) := by
            intro k hk
            rcases mem_keys_dinsert hk with h' | h'
            · subst h'
              cases hadd : (dc.add_card card.name).1 with
              | true =>
                left
                rw [add_card_succ_main dc card.name hadd]
                simp
              | false =>
                right
                intro c hc
                rw [add_card_fail_state dc card.name hadd] at hc
                by_contra hqty
                push_neg at hqty
                have hq0 : dget dc.main_deck card.name 0 = 0 := by
                  unfold dget
                  rw [h1.2]
                  rfl
                have : (dc.add_card card.name).1 = true :=
                  (add_card_succ_iff dc card.name).2
                    ⟨c, hc, by rw [hq0]; exact copyLimit_pos dc.spec,
                      by omega⟩
                rw [hadd] at this
                simp at this
            · rcases hinv k h' with hs | hq
              · left
                exact add_card_main_isSome dc card.name k hs
              · right
                rw [(add_card_pool_spec dc card.name).1]
                exact hq
          obtain ⟨ha, hb, hc⟩ := ih (dc.add_card card.name).2
            (dinsert lid card.name 1) hvals' hinv'
          refine ⟨by omega, hb, ?_⟩
          have hlid2 : dsum (dinsert lid card.name 1) * 2 ≤
              spec.target_lands + 1 := by
            rcases hget01 with hg | hg <;> omega
          calc dsum (landPhase1 spec rest (dc.add_card card.name).2
                (dinsert lid card.name 1)).2 * 2
              ≤ max (dsum (dinsert lid card.name 1) * 2)
                  (spec.target_lands + 1) := hc
            _ ≤ max (dsum lid * 2) (spec.target_lands + 1) :=
                max_le (le_trans hlid2 (le_max_right _ _)) (le_max_right _ _)
        · rw [if_neg h3]
          exact ih dc lid hvals hinv
      · rw [if_neg h2]
        exact ih dc lid hvals hinv
    · rw [if_neg h1]
      exact ih dc lid hvals hinv

theorem build_state_bound (spec : DeckSpec) (pool : List AnalyzedCard)
    (h0 : 0 ≤ spec.target_lands)
    (h1 : spec.target_lands ≤ targetDeckSize spec) :
    dsum (build_deck_state spec pool).main_deck ≤ targetDeckSize spec := by
  simp only [build_deck_state]
  have hdc0total : (DeckConstruction.init spec pool).total_cards = 0 := rfl
  have hdc0inv : MDInv (DeckConstruction.init spec pool) := by
    constructor <;> intro p hp <;> simp [DeckConstruction.init] at hp
  set dc1 := nonlandLoop (nonLandTarget spec) (nonLandTarget spec).toNat
    (DeckConstruction.init spec pool) with hdc1def
  have hloop := nonlandLoop_total_le (nonLandTarget spec)
    (nonLandTarget spec).toNat (DeckConstruction.init spec pool)
  rw [← hdc1def, hdc0total] at hloop
  have hmax0 : max (0 : ℤ) (nonLandTarget spec) = nonLandTarget spec :=
    max_eq_right (by unfold nonLandTarget; omega)
  rw [hmax0] at hloop
  have hMD1 : MDInv dc1 :=
    (nonlandLoop_fields (nonLandTarget spec) (nonLandTarget spec).toNat
      (DeckConstruction.init spec pool)).2.2 hdc0inv
  set ph := landPhase1 spec pool dc1 [] with hphdef
  obtain ⟨hpa, hpb, hpc⟩ := landPhase1_bound spec pool dc1 []
    (by simp) (by simp)
  rw [← hphdef] at hpa hpb hpc
  have hz : dsum ([] : List (String × ℤ)) = 0 := rfl
  rw [hz] at hpa hpc
  have hlid_nonneg : 0 ≤ dsum ph.2 :=
    dsum_nonneg fun p hp => by rw [hpb p hp]; norm_num
  have hlidlen : dsum ph.2 = ph.2.length := dsum_eq_length hpb
  have hmaxL : max ((0 : ℤ) * 2) (spec.target_lands + 1) =
      spec.target_lands + 1 := max_eq_right (by omega)
  rw [hmaxL] at hpc
  have hMD2 : MDInv ph.1 := (landPhase1_fields spec pool dc1 []).2.2 hMD1
  have htot2 : ph.1.total_cards = dsum ph.1.main_deck := rfl
  have hnlt : nonLandTarget spec = targetDeckSize spec - spec.target_lands := rfl
  by_cases hrem : spec.target_lands - (ph.2.length : ℤ) > 0
  · rw [if_pos hrem]
    have hgen := generate_spec ph.1 pool (spec.target_lands - ph.2.length)
      hrem hMD2.1
    have hgsum : dsum (generate_basic_land_base ph.1 pool
        (spec.target_lands - ph.2.length)) ≤
        spec.target_lands - ph.2.length := by
      rcases hgen.2.2.1 with h | h
      · omega
      · rw [h, hz]
        omega
    have hupd : dsum (dupdate ph.1.main_deck
        (generate_basic_land_base ph.1 pool
          (spec.target_lands - ph.2.length))) ≤
        dsum ph.1.main_deck + dsum (generate_basic_land_base ph.1 pool
          (spec.target_lands - ph.2.length)) :=
      dsum_dupdate_le hMD2.1 hgen.1
    show dsum (dupdate ph.1.main_deck _) ≤ _
    omega
  · rw [if_neg hrem]
    show dsum ph.1.main_deck ≤ _
    omega

/-- C1 (amended): when the spec's land target does not exceed the
format's expected deck size (100 for commander, 60 otherwise), the sum of
the main-deck quantities returned by `build_deck` is at most that size.
(Without the added bound `target_lands ≤ deck size` the claim fails: see
the counterexample, a 61-card modern deck.) -/
theorem C1_deck_size_amended (spec : DeckSpec) (pool : List AnalyzedCard)
    (h0 : 0 ≤ spec.target_lands)
    (h1 : spec.target_lands ≤ targetDeckSize spec) :
    dsum (build_deck spec pool).main_deck ≤ targetDeckSize spec := by
  unfold build_deck
  by_cases hp : pool.isEmpty
  · rw [if_pos hp]
    show dsum [] ≤ _
    rw [show dsum [] = 0 from rfl]
    unfold targetDeckSize
    split_ifs <;> norm_num
  · rw [if_neg hp]
    exact build_state_bound spec pool h0 h1

/-- C1 counterexample: a modern build with `target_lands = 61` returns a
61-card main deck, above the 60-card format size. -/
theorem C1_counterexample :
    dsum (build_deck specC1 [gloryW]).main_deck = 61 ∧
    targetDeckSize specC1 = 60 := by
  constructor <;> decide

theorem C1_witness :
    dsum (build_deck specC3 [bigW]).main_deck ≤ targetDeckSize specC3 :=
  C1_deck_size_amended specC3 [bigW] (by decide) (by decide)

/-- C2 (amended): every main-deck entry of a `build_deck` result whose
name is not one of the six basic-land names written by the land
synthesizer (`Plains`, `Island`, `Swamp`, `Mountain`, `Forest`,
`Wastes`) respects the copy limit — at most 1 in commander, at most 4
otherwise — and the owned quantity of the same-named pool card.  (The
unrestricted claim fails on the merged basic lands: see the
counterexample, 99 Plains in a commander deck.) -/
theorem C2_copy_limits_amended (spec : DeckSpec) (pool : List AnalyzedCard)
    (key : String) (v : ℤ)
    (hlk : dlookup (build_deck spec pool).main_deck key = some v)
    (hkey : key ∉ ["Plains", "Island", "Swamp", "Mountain", "Forest", "Wastes"]) :
    v ≤ copyLimit spec ∧
    (spec.format = "commander" → v ≤ 1) ∧
    (spec.format ≠ "commander" → v ≤ 4) ∧
    ∃ c, dlookup (fromListPy (pool.map fun c => (c.name, c))) key = some c ∧
      v ≤ c.quantity := by
  unfold build_deck at hlk
  by_cases hp : pool.isEmpty
  · rw [if_pos hp] at hlk
    simp [dlookup] at hlk
  · rw [if_neg hp] at hlk
    have hlk' : dlookup (build_deck_state spec pool).main_deck key = some v := hlk
    clear hlk
    rw [build_deck_state] at hlk'
    have hdc0inv : MDInv (DeckConstruction.init spec pool) := by
      constructor <;> intro p hp' <;> simp [DeckConstruction.init] at hp'
    set dc1 := nonlandLoop (nonLandTarget spec) (nonLandTarget spec).toNat
      (DeckConstruction.init spec pool) with hdc1def
    have hMD1 : MDInv dc1 :=
      (nonlandLoop_fields (nonLandTarget spec) (nonLandTarget spec).toNat
        (DeckConstruction.init spec pool)).2.2 hdc0inv
    set ph := landPhase1 spec pool dc1 [] with hphdef
    have hMD2 : MDInv ph.1 := (landPhase1_fields spec pool dc1 []).2.2 hMD1
    have havail2 : ph.1.available_pool =
        fromListPy (pool.map fun c => (c.name, c)) := by
      rw [hphdef, (landPhase1_fields spec pool dc1 []).1, hdc1def,
        (nonlandLoop_fields (nonLandTarget spec) (nonLandTarget spec).toNat
          (DeckConstruction.init spec pool)).1]
      rfl
    have hspec2 : ph.1.spec = spec := by
      rw [hphdef, (landPhase1_fields spec pool dc1 []).2.1, hdc1def,
        (nonlandLoop_fields (nonLandTarget spec) (nonLandTarget spec).toNat
          (DeckConstruction.init spec pool)).2.1]
      rfl
    have hfinish : dlookup ph.1.main_deck key = some v →
        v ≤ copyLimit spec ∧
        (spec.format = "commander" → v ≤ 1) ∧
        (spec.format ≠ "commander" → v ≤ 4) ∧
        ∃ c, dlookup (fromListPy (pool.map fun c => (c.name, c))) key =
          some c ∧ v ≤ c.quantity := by
      intro hlk2
      obtain ⟨c, hc1, hc2, hc3⟩ := hMD2.2 (key, v) (dlookup_mem hlk2)
      rw [havail2] at hc1
      rw [hspec2] at hc3
      refine ⟨hc3, ?_, ?_, ⟨c, hc1, hc2⟩⟩
      · intro hf
        have hcl : copyLimit spec = 1 := by simp [copyLimit, hf]
        omega
      · intro hf
        have hcl : copyLimit spec = 4 := by simp [copyLimit, hf]
        omega
    by_cases hrem : spec.target_lands - (ph.2.length : ℤ) > 0
    · rw [if_pos hrem] at hlk'
      have hgen := generate_spec ph.1 pool (spec.target_lands - ph.2.length)
        hrem hMD2.1
      have hnotmem : key ∉ (generate_basic_land_base ph.1 pool
          (spec.target_lands - ph.2.length)).map Prod.fst := by
        intro hmem
        rcases List.mem_map.1 hmem with ⟨p, hp', hfst⟩
        have hsix := hgen.2.1 p hp'
        rw [hfst] at hsix
        exact hkey hsix
      have hlk2 : dlookup (dupdate ph.1.main_deck
          (generate_basic_land_base ph.1 pool
            (spec.target_lands - ph.2.length))) key = some v := hlk'
      rw [dlookup_dupdate_of_not_mem_keys _ _ _ hnotmem] at hlk2
      exact hfinish hlk2
    · rw [if_neg hrem] at hlk'
      exact hfinish hlk'

/-- C2 counterexample: a commander build merges 99 basic Plains into the
main deck — quantity far above the singleton copy limit, for a name that
is not even in the available pool. -/
theorem C2_counterexample :
    specC2.format = "commander" ∧
    dlookup (build_deck specC2 [gloryW]).main_deck "Plains" = some 99 := by
  constructor
  · rfl
  · decide

theorem C2_witness : (1 : ℤ) ≤ copyLimit specC2 :=
  (C2_copy_limits_amended specC2 [gloryW] "Glory" 1 (by decide) (by decide)).1

end MtgDB
